import Mathlib

/-!
# A verification development for the gosudoku solving engine

Shallow embedding of `sudoku/sudoku.go` (package `sudoku`).

Modelling conventions:

* Go `int` digit values are `ℤ` (the repository indexes slices with puzzle
  values, and its own tests feed the value `-1`, so digits must be signed).
* A Go `constraint` is a `map[int]bool` in which every stored value is `true`,
  so it is embedded as the finite set of its keys, `Finset ℤ`.
* A Go `[]constraint` board is a `List (Finset ℤ)`; in-place mutation becomes
  explicit state passing, every propagation helper returning the new board
  together with its `changes` counter, exactly as the Go code accumulates it.
* Go slice indexing never goes out of range inside the solver (masks only hold
  indices below 81 and boards have 81 cells), so board reads are embedded with
  a default (`getC`) and writes with a no-op out of range (`setC`).  In
  `validateMask`, where an out-of-range index IS reachable (a run-time panic in
  Go), the embedding returns `Option Bool` with `none` for the panic.
* The two unbounded Go loops (`solveBySearch` recursion and its fixed-point
  propagation loop) are embedded with an explicit bound (`totalSize b + 1`)
  that is proved sufficient below (`applyAllConstraints_size`,
  `propagateLoop_fix`, `solveGo_fuel_irrelevant`), so the embedded functions
  compute exactly what the Go loops compute.
* Go map iteration order is unspecified.  The only place where that order is
  observable is the branch loop `for key := range constraints[candidate]` in
  `solveBySearch`; the embedding therefore takes an enumeration function
  `enum : Finset ℤ → List ℤ` constrained by `ValidEnum` (no duplicates, right
  key set).  The other two `range` loops over constraint maps
  (`propagateConstraint1`, `constraints2Puzzle`) run only on singleton maps,
  where every admissible enumeration yields the same one-element list, so they
  are embedded with the sorted enumeration.
* `applyAllConstraints` fans each family of nine pairwise disjoint masks out to
  nine goroutines and joins them before the next family; since the masks of a
  family touch disjoint cells, that is embedded as the sequential fold over
  the 27 masks in family order.
-/

namespace GoSudoku

/-- Go: `const dim = 9`. -/
def dim : ℕ := 9

/-- Go: `var boxDim = int(math.Sqrt(dim))` = 3. -/
def boxDim : ℕ := 3

/-- A `constraint` is the key set of the Go `map[int]bool`. -/
abbrev Constraint := Finset ℤ

/-- A `[]constraint` board. -/
abbrev Board := List Constraint

/-- Go `newConstraint`: a clue becomes the singleton set, 0 becomes {1,...,9}. -/
def newConstraint (val : ℤ) : Constraint :=
  if val ≠ 0 then {val} else Finset.Icc 1 9

/-- Row mask `i`: indices `j + i*dim` for `j = 0..8` (generateBoardMasks). -/
def rowMask (i : ℕ) : List ℕ := (List.range dim).map (fun j => j + i * dim)

/-- Column mask `i`: indices `j*dim + i` for `j = 0..8` (generateBoardMasks). -/
def colMask (i : ℕ) : List ℕ := (List.range dim).map (fun j => j * dim + i)

/-- Box mask `i`: `j + k*dim + i*boxDim + offset*dim*(boxDim-1)` where the Go
`offset` counter equals `i / boxDim` while box `i` is generated. -/
def boxMask (i : ℕ) : List ℕ :=
  ((List.range boxDim).map (fun j =>
    (List.range boxDim).map (fun k =>
      j + k * dim + i * boxDim + (i / boxDim) * dim * (boxDim - 1)))).flatten

/-- Go `generateBoardMasks`: `[][][]int{rows[:], cols[:], boxes[:]}`. -/
def generateBoardMasks : List (List (List ℕ)) :=
  [(List.range dim).map rowMask, (List.range dim).map colMask,
    (List.range dim).map boxMask]

/-- Go: `var masks = generateBoardMasks()`. -/
def masks : List (List (List ℕ)) := generateBoardMasks

/-- The 27 group masks in the order `applyAllConstraints` and `ValidatePuzzle`
walk them: rows, then columns, then boxes. -/
def allMaskList : List (List ℕ) := masks.flatten

/-- Read `constraints[i]`; out of range yields the empty set (unreachable on
the 81-cell boards the solver builds, where masks index below 81). -/
def getC : Board → ℕ → Constraint
  | [], _ => ∅
  | c :: _, 0 => c
  | _ :: b, i + 1 => getC b i

/-- Write `constraints[i] = s` (functional update of the slice cell). -/
def setC : Board → ℕ → Constraint → Board
  | [], _, _ => []
  | _ :: b, 0, s => s :: b
  | c :: b, i + 1, s => c :: setC b i s

/-- Number of candidates on the whole board; the termination measure for both
Go loops. -/
def totalSize : Board → ℕ
  | [] => 0
  | c :: b => c.card + totalSize b

/-- The key list of a constraint map, in ascending order.  (Insertion sort of
any representative list; sorting is permutation-invariant, so this is well
defined on the multiset underlying the `Finset`.) -/
def sortKeys (s : Constraint) : List ℤ :=
  Quot.lift (fun l => List.insertionSort (· ≤ ·) l)
    (fun l₁ l₂ h =>
      List.eq_of_perm_of_sorted
        (((List.perm_insertionSort _ l₁).trans h).trans
          (List.perm_insertionSort _ l₂).symm)
        (List.sorted_insertionSort _ l₁) (List.sorted_insertionSort _ l₂))
    s.val

/-- Innermost loop of `propagateConstraint1`: for one known `key` of cell
`cur`, visit `elem` of the mask and delete `key` there, counting the change. -/
def pc1Elem (key : ℤ) (cur : ℕ) (st : Board × ℕ) (elem : ℕ) : Board × ℕ :=
  if elem = cur ∨ key ∉ getC st.1 elem then st
  else (setC st.1 elem ((getC st.1 elem).erase key), st.2 + 1)

/-- Middle loop of `propagateConstraint1`: `for key := range constraints[cur]`
(the map is a singleton here, see the header note on iteration order). -/
def pc1Key (cur : ℕ) (mask : List ℕ) (st : Board × ℕ) (key : ℤ) : Board × ℕ :=
  mask.foldl (pc1Elem key cur) st

/-- Outer loop body of `propagateConstraint1`: skip `cur` unless its
constraint is a singleton. -/
def pc1Cur (mask : List ℕ) (st : Board × ℕ) (cur : ℕ) : Board × ℕ :=
  if (getC st.1 cur).card ≠ 1 then st
  else (sortKeys (getC st.1 cur)).foldl (pc1Key cur mask) st

/-- Go `propagateConstraint1` (Rule A): a known value is deleted from every
other cell of the mask; returns the mutated board and the change count. -/
def propagateConstraint1 (b : Board) (mask : List ℕ) : Board × ℕ :=
  mask.foldl (pc1Cur mask) (b, 0)

/-- The scan of `propagateConstraint2` for digit `i`: `none` embeds
`continue Outer` (a second carrier, or a singleton carrier, was hit);
`some found` is the value of the Go `found` variable at the end of the scan,
with `Option ℕ` playing the role of the `-1` sentinel. -/
def pc2Scan (b : Board) (i : ℤ) : List ℕ → Option ℕ → Option (Option ℕ)
  | [], found => some found
  | v :: rest, found =>
    if i ∈ getC b v then
      if found.isSome ∨ (getC b v).card = 1 then none
      else pc2Scan b i rest (some v)
    else pc2Scan b i rest found

/-- The digits `1..dim` scanned by `propagateConstraint2`. -/
def digits : List ℤ := [1, 2, 3, 4, 5, 6, 7, 8, 9]

/-- Body of `propagateConstraint2` for one digit `i`.  Note the Go guard is
`if found > 0` although the not-found sentinel is `-1`: a scan that ends with
`found = 0` (cell index 0) takes the no-op branch. -/
def pc2Digit (mask : List ℕ) (st : Board × ℕ) (i : ℤ) : Board × ℕ :=
  match pc2Scan st.1 i mask none with
  | some (some found) =>
    if 0 < found then
      (setC st.1 found (newConstraint i), st.2 + ((getC st.1 found).card - 1))
    else st
  | _ => st

/-- Go `propagateConstraint2` (Rule B). -/
def propagateConstraint2 (b : Board) (mask : List ℕ) : Board × ℕ :=
  digits.foldl (pc2Digit mask) (b, 0)

/-- Go `propagateConstraints`: Rule A then Rule B on the same mask, summing
the change counts. -/
def propagateConstraints (b : Board) (mask : List ℕ) : Board × ℕ :=
  let r1 := propagateConstraint1 b mask
  let r2 := propagateConstraint2 r1.1 mask
  (r2.1, r1.2 + r2.2)

/-- Go `applyAllConstraints`: all 27 masks, rows then columns then boxes; the
nine goroutines of a family act on disjoint cells, so the parallel wave equals
this sequential fold. -/
def applyAllConstraints (b : Board) : Board × ℕ :=
  allMaskList.foldl
    (fun st mask =>
      let r := propagateConstraints st.1 mask
      (r.1, st.2 + r.2)) (b, 0)

/-- The fixed-point loop of `solveBySearch`, with an explicit pass bound; each
pass with a positive change count strictly shrinks `totalSize`, so the bound
`totalSize b + 1` used by `propagateLoop` is never exhausted. -/
def propagateLoopGo : ℕ → Board → Board
  | 0, b => b
  | f + 1, b =>
    let r := applyAllConstraints b
    if 0 < r.2 then propagateLoopGo f r.1 else r.1

/-- The `for changed := true; changed; changed = changes > 0` loop of
`solveBySearch`: run `applyAllConstraints` to a fixed point. -/
def propagateLoop (b : Board) : Board := propagateLoopGo (totalSize b + 1) b

/-- Go `checkCompletion`: scanning cells in order, `none` embeds the
`"Invalid sudoku!"` error (first offending cell empty), `some false` an
incomplete board (first offending cell has two or more candidates),
`some true` a complete board. -/
def checkCompletion : Board → Option Bool
  | [] => some true
  | c :: b =>
    if c.card = 0 then none
    else if 1 < c.card then some false
    else checkCompletion b

/-- Inner loop of `getSearchCandidate`: first cell index (from `j`) whose
constraint has exactly `n` candidates. -/
def findCellOfSize (n : ℕ) : Board → ℕ → Option ℕ
  | [], _ => none
  | c :: b, j => if c.card = n then some j else findCellOfSize n b (j + 1)

/-- Outer loop of `getSearchCandidate` over the sizes `2..dim`. -/
def gscFrom (b : Board) : List ℕ → Option ℕ
  | [] => none
  | n :: rest =>
    match findCellOfSize n b 0 with
    | some j => some j
    | none => gscFrom b rest

/-- Go `getSearchCandidate`; `none` embeds the
`"No search candidates could be found"` error. -/
def getSearchCandidate (b : Board) : Option ℕ := gscFrom b [2, 3, 4, 5, 6, 7, 8, 9]

/-- An admissible embedding of Go map iteration order: some enumeration of the
key set without duplicates. -/
def ValidEnum (enum : Constraint → List ℤ) : Prop :=
  ∀ s : Constraint, (enum s).Nodup ∧ ∀ k : ℤ, k ∈ enum s ↔ k ∈ s

/-- Ascending enumeration (one admissible order). -/
def ascEnum : Constraint → List ℤ := fun s => sortKeys s

/-- Descending enumeration (another admissible order). -/
def descEnum : Constraint → List ℤ := fun s => (sortKeys s).reverse

/-- The branch loop of `solveBySearch`: for each candidate key in turn, clone
the board, pin the branching cell to that key, recurse through `solve`; first
success wins, and if every branch fails the original board is returned with
`false`. -/
def tryKeys (solve : Board → Board × Bool) (b : Board) (cand : ℕ) :
    List ℤ → Board × Bool
  | [] => (b, false)
  | key :: rest =>
    let r := solve (setC b cand (newConstraint key))
    if r.2 then r else tryKeys solve b cand rest

/-- One call body of `solveBySearch`: propagate to a fixed point, classify,
and branch on the chosen cell, recursing through `recur`. -/
def solveStep (enum : Constraint → List ℤ) (recur : Board → Board × Bool)
    (b : Board) : Board × Bool :=
  match checkCompletion (propagateLoop b) with
  | none => (propagateLoop b, false)
  | some true => (propagateLoop b, true)
  | some false =>
    match getSearchCandidate (propagateLoop b) with
    | none => (propagateLoop b, false)
    | some cand =>
      tryKeys recur (propagateLoop b) cand (enum (getC (propagateLoop b) cand))

/-- Go `solveBySearch` with an explicit recursion bound.  Each recursion pins
a cell with at least two candidates to a singleton, so `totalSize` strictly
drops and the bound `totalSize b + 1` used by `solveBySearch` is never
exhausted (`solveGo_fuel_irrelevant`). -/
def solveGo (enum : Constraint → List ℤ) : ℕ → Board → Board × Bool
  | 0, b => (b, false)
  | f + 1, b => solveStep enum (solveGo enum f) b

/-- Go `solveBySearch`. -/
def solveBySearch (enum : Constraint → List ℤ) (b : Board) : Board × Bool :=
  solveGo enum (totalSize b + 1) b

/-- Go `puzzle2Constraints`. -/
def puzzle2Constraints (puzzle : List ℤ) : Board := puzzle.map newConstraint

/-- The value `constraints2Puzzle` writes for one cell: the sole key of a
singleton constraint, otherwise 0. -/
def constraintValue (s : Constraint) : ℤ :=
  if s.card = 1 then (sortKeys s).getLastD 0 else 0

/-- Go `constraints2Puzzle`. -/
def constraints2Puzzle (b : Board) : List ℤ := b.map constraintValue

/-- Go `SolvePuzzle`, parameterized by the map iteration order of the branch
loop. -/
def SolvePuzzle (enum : Constraint → List ℤ) (puzzle : List ℤ) :
    List ℤ × Bool :=
  (constraints2Puzzle (solveBySearch enum (puzzle2Constraints puzzle)).1,
    (solveBySearch enum (puzzle2Constraints puzzle)).2)

/-- The write `seenBefore[v] = true` on the seen table. -/
def setSeen (seen : ℤ → Bool) (v : ℤ) : ℤ → Bool :=
  fun n => if n = v then true else seen n

/-- Loop of Go `validateMask` over one mask.  `seen` is the
`seenBefore := make([]bool, dim+1)` table (indices `0..9`); reading it at a
value outside that range is the Go panic, embedded as `none`.  A zero value
skips the duplicate test (short-circuit `&&`) but still writes index 0. -/
def vmGo (puzzle : List ℤ) : List ℕ → (ℤ → Bool) → Option Bool
  | [], _ => some true
  | m :: rest, seen =>
    match puzzle.get? m with
    | none => none
    | some v =>
      if v ≠ 0 then
        if 0 ≤ v ∧ v < 10 then
          if seen v then some false
          else vmGo puzzle rest (setSeen seen v)
        else none
      else vmGo puzzle rest (setSeen seen 0)

/-- Go `validateMask`. -/
def validateMask (puzzle : List ℤ) (mask : List ℕ) : Option Bool :=
  vmGo puzzle mask (fun _ => false)

/-- Loop of Go `ValidatePuzzle` over the 27 masks, propagating a panic. -/
def vpGo (puzzle : List ℤ) : List (List ℕ) → Option Bool
  | [] => some true
  | m :: rest =>
    match validateMask puzzle m with
    | none => none
    | some false => some false
    | some true => vpGo puzzle rest

/-- Go `ValidatePuzzle`: the length test runs first; the masks are then
checked in order.  `none` embeds a panic inside `validateMask`. -/
def ValidatePuzzle (puzzle : List ℤ) : Option Bool :=
  if puzzle.length ≠ dim * dim then some false
  else vpGo puzzle allMaskList

/-- The claim phrase "no group mask contains the same nonzero digit twice"
for one mask: pairwise over the masked values, equal values are zero. -/
def MaskNoDup (p : List ℤ) (m : List ℕ) : Prop :=
  (m.map (fun i => p.getD i 0)).Pairwise (fun a b => a ≠ 0 → a ≠ b)

instance (p : List ℤ) (m : List ℕ) : Decidable (MaskNoDup p m) := by
  unfold MaskNoDup; infer_instance

/-- Every cell's candidate set is inside the digit range `{1,...,9}`; an
invariant of all boards the solver builds from in-range puzzles. -/
def CellsOK (b : Board) : Prop := ∀ i : ℕ, getC b i ⊆ Finset.Icc 1 9

/-! ### Heap model of `cloneBoard`

Go boards are slices of map references; `cloneBoard` copies the slice AND
deep-copies every `constraint` map through `constraint.clone`.  To state the
claim about clone isolation (mutation through one board leaving the other
untouched) the reference structure is made explicit: a heap maps references
(allocation order numbers) to key sets, and a board is a list of references.
-/

/-- The store of `constraint` map values: `cells r` is the key set held at
reference `r`, and `next` is the next fresh reference. -/
structure Heap where
  cells : ℕ → Constraint
  next : ℕ

/-- Allocate a fresh `constraint` map holding the key set `s` (what
`newConstraint` or the map literal in `constraint.clone` does). -/
def allocConstraint (h : Heap) (s : Constraint) : Heap × ℕ :=
  (⟨fun n => if n = h.next then s else h.cells n, h.next + 1⟩, h.next)

/-- Go `constraint.clone`: a fresh map with the same key set as `r`. -/
def constraintClone (h : Heap) (r : ℕ) : Heap × ℕ :=
  allocConstraint h (h.cells r)

/-- Go `cloneBoard`: a fresh slice whose cells are clones of the originals,
in order. -/
def cloneBoard (h : Heap) : List ℕ → Heap × List ℕ
  | [] => (h, [])
  | r :: rest =>
    let x := constraintClone h r
    let y := cloneBoard x.1 rest
    (y.1, x.2 :: y.2)

/-- Go `delete(constraints[elem], key)` as a heap mutation at reference `r`. -/
def deleteKey (h : Heap) (r : ℕ) (key : ℤ) : Heap :=
  ⟨fun n => if n = r then (h.cells r).erase key else h.cells n, h.next⟩

/-- All references of a board have been allocated. -/
def RefsValid (h : Heap) (bs : List ℕ) : Prop := ∀ r ∈ bs, r < h.next

instance (h : Heap) (bs : List ℕ) : Decidable (RefsValid h bs) := by
  unfold RefsValid; infer_instance

/-! ### Concrete boards and puzzles used by witnesses and counterexamples -/

/-- A fully solved valid grid (used to evaluate the solver on a concrete
input). -/
def solvedGrid : List ℤ :=
  [1,6,9,2,7,8,3,4,5,
   2,3,4,1,5,9,6,7,8,
   5,7,8,3,4,6,1,2,9,
   3,1,2,4,6,5,8,9,7,
   9,8,5,7,1,2,4,3,6,
   6,4,7,8,9,3,5,1,2,
   7,9,1,6,8,4,2,5,3,
   4,2,6,5,3,7,9,8,1,
   8,5,3,9,2,1,7,6,4]

/-- `solvedGrid` with the four cells 0, 3, 9, 12 blanked.  Those cells form a
rectangle across two rows, two columns and two boxes whose values 1 and 2 can
be placed two ways, so this puzzle has exactly the two completions
`solvedGrid` and `solvedGridB`. -/
def twoSolPuzzle : List ℤ :=
  [0,6,9,0,7,8,3,4,5,
   0,3,4,0,5,9,6,7,8,
   5,7,8,3,4,6,1,2,9,
   3,1,2,4,6,5,8,9,7,
   9,8,5,7,1,2,4,3,6,
   6,4,7,8,9,3,5,1,2,
   7,9,1,6,8,4,2,5,3,
   4,2,6,5,3,7,9,8,1,
   8,5,3,9,2,1,7,6,4]

/-- The other completion of `twoSolPuzzle` (the rectangle swapped). -/
def solvedGridB : List ℤ :=
  [2,6,9,1,7,8,3,4,5,
   1,3,4,2,5,9,6,7,8,
   5,7,8,3,4,6,1,2,9,
   3,1,2,4,6,5,8,9,7,
   9,8,5,7,1,2,4,3,6,
   6,4,7,8,9,3,5,1,2,
   7,9,1,6,8,4,2,5,3,
   4,2,6,5,3,7,9,8,1,
   8,5,3,9,2,1,7,6,4]

/-- 81 values, first one out of range above: `seenBefore[10]` is out of
bounds in Go (the run crashes), though the sequence has no duplicate. -/
def puzzleTen : List ℤ := 10 :: List.replicate 80 0

/-- 81 values, first one out of range below (the repository's own test input
`outOfRange1`): `seenBefore[-1]` is out of bounds in Go. -/
def puzzleNeg : List ℤ := (-1) :: List.replicate 80 0

/-- 81 values with a duplicate 1 in row 0 before the trailing `-1`: the
duplicate is found before the out-of-range access. -/
def puzzleDupNeg : List ℤ := 1 :: 1 :: (List.replicate 78 0 ++ [-1])

/-- A board whose first cell has two candidates and whose second cell is
empty: `checkCompletion` answers on the first cell and never sees the empty
one. -/
def cexBoard : Board := {1, 2} :: ∅ :: List.replicate 79 ({1} : Constraint)

/-- Row 0 is `[{1,2}, {2}, {3}, ..., {9}]`: digit 1 has exactly one carrier in
the row-0 mask, the non-singleton cell 0. -/
def bugBoard0 : Board :=
  [{1, 2}, {2}, {3}, {4}, {5}, {6}, {7}, {8}, {9}] ++
    List.replicate 72 (Finset.Icc 1 9)

/-- Row 0 is `[{9}, {1,2}, {3}, ..., {8}]`: digit 1 has exactly one carrier in
the row-0 mask, the non-singleton cell 1. -/
def bugBoard1 : Board :=
  [{9}, {1, 2}, {3}, {4}, {5}, {6}, {7}, {8}, {2}] ++
    List.replicate 72 (Finset.Icc 1 9)

/-- `bugBoard1` after Rule B pins cell 1 to digit 1. -/
def bugBoard1Fixed : Board :=
  [{9}, {1}, {3}, {4}, {5}, {6}, {7}, {8}, {2}] ++
    List.replicate 72 (Finset.Icc 1 9)

/-- A one-cell board whose cell has ten candidates: incomplete, but no cell
has a size in the scanned range 2..9, so candidate lookup errors out. -/
def stuckBoard : Board := [Finset.Icc 1 10]

/-- A one-cell heap-model board for the clone-isolation witness. -/
def heapW : Heap := ⟨fun n => if n = 0 then {1, 2} else ∅, 1⟩

/-! ## Lemmas about the board primitives -/

theorem setC_length (b : Board) (i : ℕ) (s : Constraint) :
    (setC b i s).length = b.length := by
  induction b generalizing i with
  | nil => rfl
  | cons c b ih =>
    cases i with
    | zero => rfl
    | succ i => simpa [setC] using ih i

theorem getC_setC_eq (b : Board) (i : ℕ) (s : Constraint) (h : i < b.length) :
    getC (setC b i s) i = s := by
  induction b generalizing i with
  | nil => simp at h
  | cons c b ih =>
    cases i with
    | zero => rfl
    | succ i => simpa [setC, getC] using ih i (by simpa using h)

theorem getC_setC_ne (b : Board) (i j : ℕ) (s : Constraint) (h : i ≠ j) :
    getC (setC b i s) j = getC b j := by
  induction b generalizing i j with
  | nil => rfl
  | cons c b ih =>
    cases i with
    | zero => cases j with
      | zero => exact absurd rfl h
      | succ j => rfl
    | succ i =>
      cases j with
      | zero => rfl
      | succ j => simpa [setC, getC] using ih i j (by omega)

theorem lt_length_of_getC_ne_empty (b : Board) (i : ℕ) (h : getC b i ≠ ∅) :
    i < b.length := by
  induction b generalizing i with
  | nil => exact absurd rfl h
  | cons c b ih =>
    cases i with
    | zero => simp
    | succ i => simpa using ih i h

theorem lt_length_of_mem_getC (b : Board) (i : ℕ) (k : ℤ)
    (h : k ∈ getC b i) : i < b.length :=
  lt_length_of_getC_ne_empty b i (fun he => by simp [he] at h)

theorem totalSize_setC (b : Board) (i : ℕ) (s : Constraint)
    (h : i < b.length) :
    totalSize (setC b i s) + (getC b i).card = totalSize b + s.card := by
  induction b generalizing i with
  | nil => simp at h
  | cons c b ih =>
    cases i with
    | zero => simp [setC, getC, totalSize]; omega
    | succ i =>
      have := ih i (by simpa using h)
      simp only [setC, getC, totalSize]
      omega

theorem getC_mem (b : Board) (i : ℕ) (h : i < b.length) : getC b i ∈ b := by
  induction b generalizing i with
  | nil => simp at h
  | cons c b ih =>
    cases i with
    | zero => simp [getC]
    | succ i => exact List.mem_cons_of_mem _ (ih i (by simpa using h))

theorem mem_getC (b : Board) (s : Constraint) (h : s ∈ b) :
    ∃ i, i < b.length ∧ getC b i = s := by
  induction b with
  | nil => simp at h
  | cons c b ih =>
    rcases List.mem_cons.1 h with h | h
    · exact ⟨0, by simp [getC, h.symm]⟩
    · obtain ⟨i, hi, hg⟩ := ih h
      exact ⟨i + 1, by simpa using hi, hg⟩

theorem get?_eq_getC (b : Board) (i : ℕ) (h : i < b.length) :
    b.get? i = some (getC b i) := by
  induction b generalizing i with
  | nil => simp at h
  | cons c b ih =>
    cases i with
    | zero => rfl
    | succ i => simpa [getC] using ih i (by simpa using h)

/-! ## Lemmas about `sortKeys` -/

theorem sortKeys_coe (l : List ℤ) (h : Multiset.Nodup (l : Multiset ℤ)) :
    sortKeys ⟨(l : Multiset ℤ), h⟩ = List.insertionSort (· ≤ ·) l := rfl

theorem mem_sortKeys (s : Constraint) (k : ℤ) : k ∈ sortKeys s ↔ k ∈ s := by
  obtain ⟨m, hm⟩ := s
  induction m using Quot.inductionOn with
  | h l =>
    show k ∈ List.insertionSort (· ≤ ·) l ↔ _
    rw [List.Perm.mem_iff (List.perm_insertionSort _ l)]
    simp [Finset.mem_def, Multiset.mem_coe]

theorem sortKeys_nodup (s : Constraint) : (sortKeys s).Nodup := by
  obtain ⟨m, hm⟩ := s
  induction m using Quot.inductionOn with
  | h l =>
    show (List.insertionSort (· ≤ ·) l).Nodup
    exact ((List.perm_insertionSort _ l).nodup_iff).2 (by simpa using hm)

theorem sortKeys_singleton (k : ℤ) : sortKeys {k} = [k] := rfl

theorem sortKeys_of_card_one (s : Constraint) (h : s.card = 1) :
    ∃ k, s = {k} ∧ sortKeys s = [k] := by
  obtain ⟨k, rfl⟩ := Finset.card_eq_one.1 h
  exact ⟨k, rfl, sortKeys_singleton k⟩

theorem ascEnum_valid : ValidEnum ascEnum := by
  intro s
  exact ⟨sortKeys_nodup s, fun k => mem_sortKeys s k⟩

theorem descEnum_valid : ValidEnum descEnum := by
  intro s
  refine ⟨List.nodup_reverse.2 (sortKeys_nodup s), fun k => ?_⟩
  rw [descEnum, List.mem_reverse]
  exact mem_sortKeys s k

theorem constraintValue_singleton (k : ℤ) : constraintValue {k} = k := by
  simp [constraintValue, sortKeys_singleton]

/-! ## Generic fold machinery

The Go propagation functions are nests of loops over a `(board, changes)`
state.  Three reusable facts: a fold preserves any invariant its step
preserves; if every step can only grow the counter, so does the fold; and if
in addition a step that leaves the counter alone leaves the whole state
alone, then a fold that leaves the counter alone is the identity and so is
each of its steps. -/

theorem foldl_pres {α : Type} (P : Board × ℕ → Prop)
    (step : Board × ℕ → α → Board × ℕ) (l : List α) :
    ∀ st, (∀ st x, x ∈ l → P st → P (step st x)) → P st →
      P (l.foldl step st) := by
  induction l with
  | nil => intro st _ h; exact h
  | cons a l ih =>
    intro st hstep h
    exact ih (step st a) (fun st x hx => hstep st x (List.mem_cons_of_mem _ hx))
      (hstep st a (List.mem_cons_self _ _) h)

theorem foldl_cnt_mono {α : Type} (step : Board × ℕ → α → Board × ℕ)
    (hm : ∀ st x, st.2 ≤ (step st x).2) :
    ∀ (l : List α) st, st.2 ≤ (l.foldl step st).2 := by
  intro l
  induction l with
  | nil => intro st; exact le_refl _
  | cons a l ih => intro st; exact le_trans (hm st a) (ih (step st a))

theorem foldl_fix {α : Type} (step : Board × ℕ → α → Board × ℕ)
    (hm : ∀ st x, st.2 ≤ (step st x).2)
    (hf : ∀ st x, (step st x).2 = st.2 → step st x = st) :
    ∀ (l : List α) st, (l.foldl step st).2 = st.2 →
      l.foldl step st = st ∧ ∀ x ∈ l, step st x = st := by
  intro l
  induction l with
  | nil => intro st _; exact ⟨rfl, by simp⟩
  | cons a l ih =>
    intro st h
    have h1 : (step st a).2 = st.2 := by
      have := hm st a
      have := foldl_cnt_mono step hm l (step st a)
      simp only [List.foldl_cons] at h
      omega
    have ha : step st a = st := hf st a h1
    rw [List.foldl_cons, ha] at h
    obtain ⟨hfold, hsteps⟩ := ih st h
    refine ⟨by rw [List.foldl_cons, ha, hfold], fun x hx => ?_⟩
    rcases List.mem_cons.1 hx with rfl | hx
    · exact ha
    · exact hsteps x hx

theorem foldl_size {α : Type} (step : Board × ℕ → α → Board × ℕ) (l : List α)
    (hs : ∀ st x, x ∈ l →
      totalSize (step st x).1 + (step st x).2 = totalSize st.1 + st.2) :
    ∀ st, totalSize (l.foldl step st).1 + (l.foldl step st).2 =
      totalSize st.1 + st.2 := by
  induction l with
  | nil => intro st; rfl
  | cons a l ih =>
    intro st
    rw [List.foldl_cons,
      ih (fun st x hx => hs st x (List.mem_cons_of_mem _ hx)) (step st a),
      hs st a (List.mem_cons_self _ _)]

/-! ## Step properties of Rule A (`propagateConstraint1`) -/

theorem pc1Elem_mono (key : ℤ) (cur : ℕ) (st : Board × ℕ) (elem : ℕ) :
    st.2 ≤ (pc1Elem key cur st elem).2 := by
  unfold pc1Elem
  split
  · exact le_refl _
  · exact Nat.le_succ _

theorem pc1Elem_fix (key : ℤ) (cur : ℕ) (st : Board × ℕ) (elem : ℕ)
    (h : (pc1Elem key cur st elem).2 = st.2) : pc1Elem key cur st elem = st := by
  unfold pc1Elem at h ⊢
  split
  · rfl
  · rename_i hcond
    rw [if_neg hcond] at h
    simp at h

theorem pc1Elem_size (key : ℤ) (cur : ℕ) (st : Board × ℕ) (elem : ℕ) :
    totalSize (pc1Elem key cur st elem).1 + (pc1Elem key cur st elem).2 =
      totalSize st.1 + st.2 := by
  unfold pc1Elem
  split
  · rfl
  · rename_i hcond
    push_neg at hcond
    obtain ⟨-, hmem⟩ := hcond
    have hlt : elem < st.1.length := lt_length_of_mem_getC _ _ _ hmem
    have hset := totalSize_setC st.1 elem ((getC st.1 elem).erase key) hlt
    have herase := Finset.card_erase_add_one hmem
    simp only
    omega

theorem pc1Key_mono (cur : ℕ) (mask : List ℕ) (st : Board × ℕ) (key : ℤ) :
    st.2 ≤ (pc1Key cur mask st key).2 :=
  foldl_cnt_mono (pc1Elem key cur) (pc1Elem_mono key cur) mask st

theorem pc1Key_fix (cur : ℕ) (mask : List ℕ) (st : Board × ℕ) (key : ℤ)
    (h : (pc1Key cur mask st key).2 = st.2) : pc1Key cur mask st key = st :=
  (foldl_fix (pc1Elem key cur) (pc1Elem_mono key cur) (pc1Elem_fix key cur)
    mask st h).1

theorem pc1Key_size (cur : ℕ) (mask : List ℕ) (st : Board × ℕ) (key : ℤ) :
    totalSize (pc1Key cur mask st key).1 + (pc1Key cur mask st key).2 =
      totalSize st.1 + st.2 :=
  foldl_size (pc1Elem key cur) mask (fun st x _ => pc1Elem_size key cur st x) st

theorem pc1Cur_mono (mask : List ℕ) (st : Board × ℕ) (cur : ℕ) :
    st.2 ≤ (pc1Cur mask st cur).2 := by
  unfold pc1Cur
  split
  · exact le_refl _
  · exact foldl_cnt_mono (pc1Key cur mask) (pc1Key_mono cur mask) _ st

theorem pc1Cur_fix (mask : List ℕ) (st : Board × ℕ) (cur : ℕ)
    (h : (pc1Cur mask st cur).2 = st.2) : pc1Cur mask st cur = st := by
  unfold pc1Cur at h ⊢
  split
  · rfl
  · rename_i hcond
    rw [if_neg hcond] at h
    exact (foldl_fix (pc1Key cur mask) (pc1Key_mono cur mask)
      (pc1Key_fix cur mask) _ st h).1

theorem pc1Cur_size (mask : List ℕ) (st : Board × ℕ) (cur : ℕ) :
    totalSize (pc1Cur mask st cur).1 + (pc1Cur mask st cur).2 =
      totalSize st.1 + st.2 := by
  unfold pc1Cur
  split
  · rfl
  · exact foldl_size (pc1Key cur mask) _
      (fun st x _ => pc1Key_size cur mask st x) st

theorem propagateConstraint1_size (b : Board) (mask : List ℕ) :
    totalSize (propagateConstraint1 b mask).1 +
      (propagateConstraint1 b mask).2 = totalSize b :=
  foldl_size (pc1Cur mask) mask (fun st x _ => pc1Cur_size mask st x) (b, 0)

theorem propagateConstraint1_fix (b : Board) (mask : List ℕ)
    (h : (propagateConstraint1 b mask).2 = 0) :
    propagateConstraint1 b mask = (b, 0) ∧
      ∀ cur ∈ mask, pc1Cur mask (b, 0) cur = (b, 0) :=
  foldl_fix (pc1Cur mask) (pc1Cur_mono mask) (pc1Cur_fix mask) mask (b, 0) h

/-- Extraction from a changeless Rule A pass: a singleton cell's key does not
occur in any other cell of the mask. -/
theorem pc1Cur_zero_extract (b : Board) (mask : List ℕ) (cur : ℕ) (k : ℤ)
    (hcard : getC b cur = {k}) (h : pc1Cur mask (b, 0) cur = (b, 0)) :
    ∀ elem ∈ mask, elem ≠ cur → k ∉ getC b elem := by
  intro elem hel hne hkmem
  have hone : (getC b cur).card = 1 := by rw [hcard]; simp
  unfold pc1Cur at h
  rw [if_neg (by simpa using hone)] at h
  rw [hcard, sortKeys_singleton] at h
  simp only [List.foldl_cons, List.foldl_nil] at h
  have hsteps := (foldl_fix (pc1Elem k cur) (pc1Elem_mono k cur)
    (pc1Elem_fix k cur) mask (b, 0) (by rw [show mask.foldl (pc1Elem k cur) (b, 0) = pc1Key cur mask (b, 0) k from rfl, h])).2
  have hstep := hsteps elem hel
  unfold pc1Elem at hstep
  rw [if_neg (by simp [hne, hkmem])] at hstep
  have : (1 : ℕ) = 0 := congrArg Prod.snd hstep
  simp at this

/-! ## Step properties of Rule B (`propagateConstraint2`) -/

theorem pc2Scan_found (b : Board) (i : ℤ) :
    ∀ (l : List ℕ) (fnd : Option ℕ) (v : ℕ),
      pc2Scan b i l fnd = some (some v) →
      fnd = some v ∨ (i ∈ getC b v ∧ (getC b v).card ≠ 1) := by
  intro l
  induction l with
  | nil =>
    intro fnd v h
    simp only [pc2Scan] at h
    exact Or.inl (by injection h)
  | cons c rest ih =>
    intro fnd v h
    simp only [pc2Scan] at h
    split at h
    · split at h
      · exact absurd h (by simp)
      · rename_i hmem hcond
        push_neg at hcond
        rcases ih (some c) v h with hv | hv
        · injection hv with hv
          subst hv
          exact Or.inr ⟨hmem, hcond.2⟩
        · exact Or.inr hv
    · exact ih fnd v h

theorem pc2Scan_start (b : Board) (i : ℤ) (mask : List ℕ) (v : ℕ)
    (h : pc2Scan b i mask none = some (some v)) :
    i ∈ getC b v ∧ (getC b v).card ≠ 1 := by
  rcases pc2Scan_found b i mask none v h with hv | hv
  · exact absurd hv (by simp)
  · exact hv

theorem pc2Digit_scan_found (mask : List ℕ) (st : Board × ℕ) (i : ℤ)
    (found : ℕ) (h : pc2Scan st.1 i mask none = some (some found)) :
    pc2Digit mask st i =
      if 0 < found then
        (setC st.1 found (newConstraint i),
          st.2 + ((getC st.1 found).card - 1))
      else st := by
  unfold pc2Digit
  rw [h]

theorem pc2Digit_scan_abort (mask : List ℕ) (st : Board × ℕ) (i : ℤ)
    (h : pc2Scan st.1 i mask none = none) : pc2Digit mask st i = st := by
  unfold pc2Digit
  rw [h]

theorem pc2Digit_scan_miss (mask : List ℕ) (st : Board × ℕ) (i : ℤ)
    (h : pc2Scan st.1 i mask none = some none) : pc2Digit mask st i = st := by
  unfold pc2Digit
  rw [h]

theorem pc2Digit_mono (mask : List ℕ) (st : Board × ℕ) (i : ℤ) :
    st.2 ≤ (pc2Digit mask st i).2 := by
  rcases hscan : pc2Scan st.1 i mask none with _ | fnd
  · rw [pc2Digit_scan_abort mask st i hscan]
  · rcases fnd with _ | found
    · rw [pc2Digit_scan_miss mask st i hscan]
    · rw [pc2Digit_scan_found mask st i found hscan]
      split
      · exact Nat.le_add_right _ _
      · exact le_refl _

theorem pc2Digit_fix (mask : List ℕ) (st : Board × ℕ) (i : ℤ)
    (h : (pc2Digit mask st i).2 = st.2) : pc2Digit mask st i = st := by
  rcases hscan : pc2Scan st.1 i mask none with _ | fnd
  · exact pc2Digit_scan_abort mask st i hscan
  · rcases fnd with _ | found
    · exact pc2Digit_scan_miss mask st i hscan
    · rw [pc2Digit_scan_found mask st i found hscan] at h ⊢
      by_cases hpos : 0 < found
      · rw [if_pos hpos] at h
        obtain ⟨hmem, hcard⟩ := pc2Scan_start st.1 i mask found hscan
        have hge : 1 ≤ (getC st.1 found).card := Finset.card_pos.2 ⟨i, hmem⟩
        have h2 : 2 ≤ (getC st.1 found).card := by omega
        simp only at h
        omega
      · rw [if_neg hpos]

theorem pc2Digit_size (mask : List ℕ) (st : Board × ℕ) (i : ℤ) (hi : i ≠ 0) :
    totalSize (pc2Digit mask st i).1 + (pc2Digit mask st i).2 =
      totalSize st.1 + st.2 := by
  rcases hscan : pc2Scan st.1 i mask none with _ | fnd
  · rw [pc2Digit_scan_abort mask st i hscan]
  · rcases fnd with _ | found
    · rw [pc2Digit_scan_miss mask st i hscan]
    · rw [pc2Digit_scan_found mask st i found hscan]
      by_cases hpos : 0 < found
      · rw [if_pos hpos]
        obtain ⟨hmem, hcard⟩ := pc2Scan_start st.1 i mask found hscan
        have hge : 1 ≤ (getC st.1 found).card := Finset.card_pos.2 ⟨i, hmem⟩
        have h2 : 2 ≤ (getC st.1 found).card := by omega
        have hlt : found < st.1.length := lt_length_of_mem_getC _ _ _ hmem
        have hset := totalSize_setC st.1 found (newConstraint i) hlt
        have hnew : (newConstraint i).card = 1 := by
          unfold newConstraint
          rw [if_pos hi]
          simp
        simp only
        omega
      · rw [if_neg hpos]

theorem digits_ne_zero : ∀ i ∈ digits, i ≠ 0 := by decide

theorem propagateConstraint2_size (b : Board) (mask : List ℕ) :
    totalSize (propagateConstraint2 b mask).1 +
      (propagateConstraint2 b mask).2 = totalSize b :=
  foldl_size (pc2Digit mask) digits
    (fun st x hx => pc2Digit_size mask st x (digits_ne_zero x hx)) (b, 0)

theorem propagateConstraint2_fix (b : Board) (mask : List ℕ)
    (h : (propagateConstraint2 b mask).2 = 0) :
    propagateConstraint2 b mask = (b, 0) ∧
      ∀ i ∈ digits, pc2Digit mask (b, 0) i = (b, 0) :=
  foldl_fix (pc2Digit mask) (pc2Digit_mono mask) (pc2Digit_fix mask)
    digits (b, 0) h

/-! ## The combined pass -/

theorem propagateConstraints_size (b : Board) (mask : List ℕ) :
    totalSize (propagateConstraints b mask).1 +
      (propagateConstraints b mask).2 = totalSize b := by
  unfold propagateConstraints
  have h1 := propagateConstraint1_size b mask
  have h2 := propagateConstraint2_size (propagateConstraint1 b mask).1 mask
  simp only
  omega

theorem propagateConstraints_fix (b : Board) (mask : List ℕ)
    (h : (propagateConstraints b mask).2 = 0) :
    propagateConstraints b mask = (b, 0) := by
  unfold propagateConstraints at h ⊢
  simp only at h ⊢
  have h1 : (propagateConstraint1 b mask).2 = 0 := by omega
  have hb1 := (propagateConstraint1_fix b mask h1).1
  rw [hb1] at h ⊢
  simp only at h ⊢
  have h2 : (propagateConstraint2 b mask).2 = 0 := by omega
  have hb2 := (propagateConstraint2_fix b mask h2).1
  rw [hb2]
  simp

theorem applyAllConstraints_size (b : Board) :
    totalSize (applyAllConstraints b).1 + (applyAllConstraints b).2 =
      totalSize b :=
  foldl_size _ allMaskList
    (fun st m _ => by
      have := propagateConstraints_size st.1 m
      simp only
      omega) (b, 0)

theorem applyAllConstraints_fix (b : Board)
    (h : (applyAllConstraints b).2 = 0) :
    applyAllConstraints b = (b, 0) ∧
      ∀ m ∈ allMaskList, propagateConstraints b m = (b, 0) := by
  have hmono : ∀ (st : Board × ℕ) (m : List ℕ), st.2 ≤
      ((propagateConstraints st.1 m).1, st.2 + (propagateConstraints st.1 m).2).2 :=
    fun st m => Nat.le_add_right _ _
  have hfix : ∀ (st : Board × ℕ) (m : List ℕ),
      ((propagateConstraints st.1 m).1, st.2 + (propagateConstraints st.1 m).2).2 = st.2 →
      ((propagateConstraints st.1 m).1, st.2 + (propagateConstraints st.1 m).2) = st := by
    intro st m hz
    simp only at hz
    have hz2 : (propagateConstraints st.1 m).2 = 0 := by omega
    have := propagateConstraints_fix st.1 m hz2
    rw [this]
    simp
  obtain ⟨h1, h2⟩ := foldl_fix _ hmono hfix allMaskList (b, 0) h
  refine ⟨h1, fun m hm => ?_⟩
  have := h2 m hm
  simp only at this
  have hsnd : (propagateConstraints b m).2 = 0 := by
    have := congrArg Prod.snd this
    simpa using this
  have hfst : (propagateConstraints b m).1 = b := by
    have := congrArg Prod.fst this
    simpa using this
  exact Prod.ext hfst hsnd

/-! ## The fixed-point loop -/

theorem propagateLoopGo_succ (f : ℕ) (b : Board) :
    propagateLoopGo (f + 1) b =
      if 0 < (applyAllConstraints b).2 then
        propagateLoopGo f (applyAllConstraints b).1
      else (applyAllConstraints b).1 := rfl

theorem propagateLoopGo_fix : ∀ (f : ℕ) (b : Board), totalSize b < f →
    applyAllConstraints (propagateLoopGo f b) = (propagateLoopGo f b, 0) := by
  intro f
  induction f with
  | zero => intro b h; omega
  | succ f ih =>
    intro b h
    rw [propagateLoopGo_succ]
    by_cases hc : 0 < (applyAllConstraints b).2
    · rw [if_pos hc]
      exact ih _ (by have := applyAllConstraints_size b; omega)
    · rw [if_neg hc]
      have h0 : (applyAllConstraints b).2 = 0 := by omega
      have hfix := (applyAllConstraints_fix b h0).1
      have hfst : (applyAllConstraints b).1 = b := by rw [hfix]
      rw [hfst]
      exact hfix

/-- At exit, the loop board is a fixed point of a full propagation cycle. -/
theorem propagateLoop_fix (b : Board) :
    applyAllConstraints (propagateLoop b) = (propagateLoop b, 0) :=
  propagateLoopGo_fix _ b (Nat.lt_succ_self _)

/-! ## Preservation of board length, cell range and per-cell subsets -/

theorem setC_oob (b : Board) (i : ℕ) (s : Constraint) (h : b.length ≤ i) :
    setC b i s = b := by
  induction b generalizing i with
  | nil => rfl
  | cons c b ih =>
    cases i with
    | zero => simp at h
    | succ i => simp only [setC]; rw [ih i (by simpa using h)]

theorem getC_setC (b : Board) (i j : ℕ) (s : Constraint) :
    getC (setC b i s) j =
      if j = i ∧ i < b.length then s else getC b j := by
  by_cases hij : j = i
  · subst hij
    by_cases hl : j < b.length
    · rw [getC_setC_eq b j s hl, if_pos ⟨rfl, hl⟩]
    · rw [setC_oob b j s (by omega), if_neg (by omega)]
  · rw [getC_setC_ne b i j s (fun he => hij he.symm),
      if_neg (fun hc => hij hc.1)]

theorem pc1Elem_board (key : ℤ) (cur : ℕ) (st : Board × ℕ) (elem : ℕ) :
    (pc1Elem key cur st elem).1 = st.1 ∨
      ∃ r, r < st.1.length ∧ key ∈ getC st.1 r ∧
        (pc1Elem key cur st elem).1 = setC st.1 r ((getC st.1 r).erase key) := by
  unfold pc1Elem
  split
  · exact Or.inl rfl
  · rename_i hcond
    push_neg at hcond
    exact Or.inr ⟨elem, lt_length_of_mem_getC _ _ _ hcond.2, hcond.2, rfl⟩

theorem pc2Digit_board (mask : List ℕ) (st : Board × ℕ) (i : ℤ) :
    (pc2Digit mask st i).1 = st.1 ∨
      ∃ r, r < st.1.length ∧ i ∈ getC st.1 r ∧
        (pc2Digit mask st i).1 = setC st.1 r (newConstraint i) := by
  rcases hscan : pc2Scan st.1 i mask none with _ | fnd
  · rw [pc2Digit_scan_abort mask st i hscan]; exact Or.inl rfl
  · rcases fnd with _ | found
    · rw [pc2Digit_scan_miss mask st i hscan]; exact Or.inl rfl
    · rw [pc2Digit_scan_found mask st i found hscan]
      by_cases hpos : 0 < found
      · rw [if_pos hpos]
        obtain ⟨hmem, -⟩ := pc2Scan_start st.1 i mask found hscan
        exact Or.inr ⟨found, lt_length_of_mem_getC _ _ _ hmem, hmem, rfl⟩
      · rw [if_neg hpos]; exact Or.inl rfl

/-- The shape of any single propagation write: it keeps the length, keeps
every cell inside its old value (on the cell range invariant), and never
enlarges a cell. -/
theorem propagation_step_facts (b0 : Board) :
    ∀ st : Board × ℕ,
      (st.1.length = b0.length ∧ ∀ i, getC st.1 i ⊆ getC b0 i) →
      ∀ st1 : Board × ℕ,
        (st1.1 = st.1 ∨
          ∃ r k, r < st.1.length ∧ st1.1 = setC st.1 r k ∧ k ⊆ getC st.1 r) →
        st1.1.length = b0.length ∧ ∀ i, getC st1.1 i ⊆ getC b0 i := by
  intro st ⟨hlen, hsub⟩ st1 hcase
  rcases hcase with hcase | ⟨r, k, hr, hset, hk⟩
  · rw [hcase]; exact ⟨hlen, hsub⟩
  · rw [hset]
    refine ⟨by rw [setC_length]; exact hlen, fun i => ?_⟩
    rw [getC_setC]
    split
    · rename_i hc
      exact hk.trans (hc.1 ▸ hsub r)
    · exact hsub i

/-- Any cell written by a propagation pass is a subset of what it replaces. -/
theorem applyAllConstraints_subset (b : Board) :
    (applyAllConstraints b).1.length = b.length ∧
      ∀ i, getC (applyAllConstraints b).1 i ⊆ getC b i := by
  have base : (b, 0).1.length = b.length ∧ ∀ i, getC (b, 0).1 i ⊆ getC b i :=
    ⟨rfl, fun i => le_refl _⟩
  refine foldl_pres
    (fun st => st.1.length = b.length ∧ ∀ i, getC st.1 i ⊆ getC b i)
    _ allMaskList (b, 0) ?_ base
  intro st m _ hst
  -- one mask: Rule A then Rule B, each a fold of single writes
  have hmask : ∀ st2 : Board × ℕ,
      (st2.1.length = b.length ∧ ∀ i, getC st2.1 i ⊆ getC b i) →
      (propagateConstraints st2.1 m).1.length = b.length ∧
        ∀ i, getC (propagateConstraints st2.1 m).1 i ⊆ getC b i := by
    intro st2 hst2
    unfold propagateConstraints
    simp only
    have h1 : (propagateConstraint1 st2.1 m).1.length = b.length ∧
        ∀ i, getC (propagateConstraint1 st2.1 m).1 i ⊆ getC b i := by
      refine foldl_pres
        (fun st3 => st3.1.length = b.length ∧ ∀ i, getC st3.1 i ⊆ getC b i)
        _ m (st2.1, 0) ?_ hst2
      intro st3 cur _ hst3
      unfold pc1Cur
      split
      · exact hst3
      · refine foldl_pres
          (fun st4 => st4.1.length = b.length ∧ ∀ i, getC st4.1 i ⊆ getC b i)
          _ _ st3 ?_ hst3
        intro st4 key _ hst4
        refine foldl_pres
          (fun st5 => st5.1.length = b.length ∧ ∀ i, getC st5.1 i ⊆ getC b i)
          _ m st4 ?_ hst4
        intro st5 elem _ hst5
        refine propagation_step_facts b st5 hst5 _ ?_
        rcases pc1Elem_board key cur st5 elem with hid | ⟨r, hr, hkm, hset⟩
        · exact Or.inl hid
        · exact Or.inr ⟨r, _, hr, hset, Finset.erase_subset _ _⟩
    refine foldl_pres
      (fun st3 => st3.1.length = b.length ∧ ∀ i, getC st3.1 i ⊆ getC b i)
      _ digits ((propagateConstraint1 st2.1 m).1, 0) ?_ h1
    intro st3 i hi hst3
    refine propagation_step_facts b st3 hst3 _ ?_
    rcases pc2Digit_board m st3 i with hid | ⟨r, hr, hkm, hset⟩
    · exact Or.inl hid
    · refine Or.inr ⟨r, newConstraint i, hr, hset, ?_⟩
      unfold newConstraint
      rw [if_pos (digits_ne_zero i hi)]
      exact Finset.singleton_subset_iff.2 hkm
  exact hmask st hst

theorem propagateLoopGo_subset (f : ℕ) :
    ∀ b : Board, (propagateLoopGo f b).length = b.length ∧
      ∀ i, getC (propagateLoopGo f b) i ⊆ getC b i := by
  induction f with
  | zero => exact fun b => ⟨rfl, fun i x hx => hx⟩
  | succ f ih =>
    intro b
    rw [propagateLoopGo_succ]
    obtain ⟨hlen, hsub⟩ := applyAllConstraints_subset b
    by_cases hc : 0 < (applyAllConstraints b).2
    · rw [if_pos hc]
      obtain ⟨hlen2, hsub2⟩ := ih (applyAllConstraints b).1
      exact ⟨hlen2.trans hlen, fun i => (hsub2 i).trans (hsub i)⟩
    · rw [if_neg hc]
      exact ⟨hlen, hsub⟩

theorem propagateLoop_subset (b : Board) :
    (propagateLoop b).length = b.length ∧
      ∀ i, getC (propagateLoop b) i ⊆ getC b i :=
  propagateLoopGo_subset _ b

/-- `CellsOK` follows from the subset facts. -/
theorem CellsOK_propagateLoop (b : Board) (h : CellsOK b) :
    CellsOK (propagateLoop b) :=
  fun i => ((propagateLoop_subset b).2 i).trans (h i)

theorem CellsOK_setC (b : Board) (i : ℕ) (s : Constraint) (h : CellsOK b)
    (hs : s ⊆ Finset.Icc 1 9) : CellsOK (setC b i s) := by
  intro j
  rw [getC_setC]
  split
  · exact hs
  · exact h j

/-! ## `checkCompletion` -/

theorem checkCompletion_complete : ∀ b : Board,
    checkCompletion b = some true ↔ ∀ s ∈ b, s.card = 1 := by
  intro b
  induction b with
  | nil => simp [checkCompletion]
  | cons c b ih =>
    unfold checkCompletion
    by_cases h0 : c.card = 0
    · rw [if_pos h0]
      simp only [List.mem_cons]
      constructor
      · intro h; exact absurd h (by simp)
      · intro h
        have := h c (Or.inl rfl)
        omega
    · rw [if_neg h0]
      by_cases h1 : 1 < c.card
      · rw [if_pos h1]
        simp only [List.mem_cons]
        constructor
        · intro h; exact absurd h (by simp)
        · intro h
          have := h c (Or.inl rfl)
          omega
      · rw [if_neg h1]
        rw [ih]
        simp only [List.mem_cons]
        constructor
        · intro h s hs
          rcases hs with rfl | hs
          · omega
          · exact h s hs
        · intro h s hs
          exact h s (Or.inr hs)

/-! ## `getSearchCandidate` -/

theorem findCellOfSize_none (n : ℕ) : ∀ (b : Board) (j0 : ℕ),
    findCellOfSize n b j0 = none ↔ ∀ s ∈ b, s.card ≠ n := by
  intro b
  induction b with
  | nil => simp [findCellOfSize]
  | cons c b ih =>
    intro j0
    unfold findCellOfSize
    by_cases hc : c.card = n
    · rw [if_pos hc]
      simp [hc]
    · rw [if_neg hc]
      rw [ih (j0 + 1)]
      simp only [List.mem_cons]
      constructor
      · intro h s hs
        rcases hs with rfl | hs
        · exact hc
        · exact h s hs
      · intro h s hs
        exact h s (Or.inr hs)

theorem findCellOfSize_some (n : ℕ) : ∀ (b : Board) (j0 j : ℕ),
    findCellOfSize n b j0 = some j →
      j0 ≤ j ∧ j - j0 < b.length ∧ (getC b (j - j0)).card = n ∧
        ∀ k, k < j - j0 → (getC b k).card ≠ n := by
  intro b
  induction b with
  | nil => intro j0 j h; exact absurd h (by simp [findCellOfSize])
  | cons c b ih =>
    intro j0 j h
    unfold findCellOfSize at h
    by_cases hc : c.card = n
    · rw [if_pos hc] at h
      injection h with h
      subst h
      refine ⟨le_refl _, by simp, ?_, ?_⟩
      · simp only [Nat.sub_self, getC]
        exact hc
      · intro k hk
        omega
    · rw [if_neg hc] at h
      obtain ⟨hle, hlt, hcard, hmin⟩ := ih (j0 + 1) j h
      have hj : j0 < j := by omega
      refine ⟨by omega, ?_, ?_, ?_⟩
      · simp only [List.length_cons]
        omega
      · have : j - j0 = (j - (j0 + 1)) + 1 := by omega
        rw [this]
        simpa [getC] using hcard
      · intro k hk
        cases k with
        | zero => simpa [getC] using hc
        | succ k =>
          simp only [getC]
          exact hmin k (by omega)

theorem gscFrom_none (b : Board) : ∀ sizes : List ℕ,
    gscFrom b sizes = none ↔ ∀ n ∈ sizes, ∀ s ∈ b, s.card ≠ n := by
  intro sizes
  induction sizes with
  | nil => simp [gscFrom]
  | cons n rest ih =>
    unfold gscFrom
    rcases hf : findCellOfSize n b 0 with _ | j
    · simp only
      rw [ih]
      have hn := (findCellOfSize_none n b 0).1 hf
      simp only [List.mem_cons]
      constructor
      · intro h m hm
        rcases hm with rfl | hm
        · exact hn
        · exact h m hm
      · intro h m hm
        exact h m (Or.inr hm)
    · simp only
      constructor
      · intro h; exact absurd h (by simp)
      · intro h
        obtain ⟨-, hlt, hcard, -⟩ := findCellOfSize_some n b 0 j hf
        simp only [Nat.sub_zero] at hlt hcard
        exact absurd hcard
          (h n (List.mem_cons_self _ _) (getC b j) (getC_mem b j hlt))

theorem gscFrom_some (b : Board) : ∀ (sizes : List ℕ) (j : ℕ),
    gscFrom b sizes = some j →
      ∃ l1 n l2, sizes = l1 ++ n :: l2 ∧
        (∀ m ∈ l1, ∀ s ∈ b, s.card ≠ m) ∧ findCellOfSize n b 0 = some j := by
  intro sizes
  induction sizes with
  | nil => intro j h; exact absurd h (by simp [gscFrom])
  | cons n rest ih =>
    intro j h
    unfold gscFrom at h
    rcases hf : findCellOfSize n b 0 with _ | j'
    · rw [hf] at h
      simp only at h
      obtain ⟨l1, m, l2, heq, hnone, hsome⟩ := ih j h
      exact ⟨n :: l1, m, l2, by rw [heq]; rfl,
        fun m' hm' => by
          rcases List.mem_cons.1 hm' with rfl | hm'
          · exact (findCellOfSize_none m' b 0).1 hf
          · exact hnone m' hm', hsome⟩
    · rw [hf] at h
      simp only at h
      injection h with h
      subst h
      exact ⟨[], n, rest, rfl, by simp, hf⟩

theorem getSearchCandidate_some (b : Board) (j : ℕ)
    (h : getSearchCandidate b = some j) :
    j < b.length ∧ 2 ≤ (getC b j).card ∧ (getC b j).card ≤ 9 := by
  obtain ⟨l1, n, l2, heq, -, hsome⟩ := gscFrom_some b _ j h
  obtain ⟨-, hlt, hcard, -⟩ := findCellOfSize_some n b 0 j hsome
  have hn : 2 ≤ n ∧ n ≤ 9 := by
    have : n ∈ ([2, 3, 4, 5, 6, 7, 8, 9] : List ℕ) := by
      rw [heq]
      exact List.mem_append_right _ (List.mem_cons_self _ _)
    simp at this
    omega
  simp only [Nat.sub_zero] at hlt hcard
  exact ⟨hlt, by omega, by omega⟩

theorem getSearchCandidate_none (b : Board)
    (hcards : ∀ s ∈ b, s.card ≤ 9) :
    getSearchCandidate b = none ↔ ∀ s ∈ b, s.card ≤ 1 := by
  rw [getSearchCandidate, gscFrom_none]
  constructor
  · intro h s hs
    have h9 := hcards s hs
    by_contra hgt
    have h2 : 2 ≤ s.card := by omega
    exact h s.card (by simp; omega) s hs rfl
  · intro h n hn s hs
    have := h s hs
    simp at hn
    omega


/-
From here to the end of the section, `propagateLoop` is sealed: unfolding it
on a symbolic board would force the whole 27-mask fold open during
unification.  The section ends before the concrete evaluations at the end of
the file, which need it to compute.
-/
section SealedPropagation

attribute [local irreducible] propagateLoop

/-! ## The search -/

theorem solveGo_succ (enum : Constraint → List ℤ) (f : ℕ) (b : Board) :
    solveGo enum (f + 1) b = solveStep enum (solveGo enum f) b := rfl

theorem solveStep_invalid (enum : Constraint → List ℤ)
    (recur : Board → Board × Bool) (b : Board)
    (hcc : checkCompletion (propagateLoop b) = none) :
    solveStep enum recur b = (propagateLoop b, false) := by
  unfold solveStep
  rw [hcc]

theorem solveStep_complete (enum : Constraint → List ℤ)
    (recur : Board → Board × Bool) (b : Board)
    (hcc : checkCompletion (propagateLoop b) = some true) :
    solveStep enum recur b = (propagateLoop b, true) := by
  unfold solveStep
  rw [hcc]

theorem solveStep_stuck (enum : Constraint → List ℤ)
    (recur : Board → Board × Bool) (b : Board)
    (hcc : checkCompletion (propagateLoop b) = some false)
    (hgs : getSearchCandidate (propagateLoop b) = none) :
    solveStep enum recur b = (propagateLoop b, false) := by
  unfold solveStep
  rw [hcc, hgs]

theorem solveStep_branch (enum : Constraint → List ℤ)
    (recur : Board → Board × Bool) (b : Board) (cand : ℕ)
    (hcc : checkCompletion (propagateLoop b) = some false)
    (hgs : getSearchCandidate (propagateLoop b) = some cand) :
    solveStep enum recur b =
      tryKeys recur (propagateLoop b) cand
        (enum (getC (propagateLoop b) cand)) := by
  unfold solveStep
  rw [hcc, hgs]

theorem solveGo_invalid (enum : Constraint → List ℤ) (f : ℕ) (b : Board)
    (hcc : checkCompletion (propagateLoop b) = none) :
    solveGo enum (f + 1) b = (propagateLoop b, false) := by
  rw [solveGo_succ]
  exact solveStep_invalid enum _ b hcc

theorem solveGo_complete (enum : Constraint → List ℤ) (f : ℕ) (b : Board)
    (hcc : checkCompletion (propagateLoop b) = some true) :
    solveGo enum (f + 1) b = (propagateLoop b, true) := by
  rw [solveGo_succ]
  exact solveStep_complete enum _ b hcc

theorem solveGo_stuck (enum : Constraint → List ℤ) (f : ℕ) (b : Board)
    (hcc : checkCompletion (propagateLoop b) = some false)
    (hgs : getSearchCandidate (propagateLoop b) = none) :
    solveGo enum (f + 1) b = (propagateLoop b, false) := by
  rw [solveGo_succ]
  exact solveStep_stuck enum _ b hcc hgs

theorem solveGo_branch (enum : Constraint → List ℤ) (f : ℕ) (b : Board)
    (cand : ℕ) (hcc : checkCompletion (propagateLoop b) = some false)
    (hgs : getSearchCandidate (propagateLoop b) = some cand) :
    solveGo enum (f + 1) b =
      tryKeys (solveGo enum f) (propagateLoop b) cand
        (enum (getC (propagateLoop b) cand)) := by
  rw [solveGo_succ]
  exact solveStep_branch enum _ b cand hcc hgs

theorem tryKeys_cons (solve : Board → Board × Bool) (b : Board) (cand : ℕ)
    (k : ℤ) (rest : List ℤ) :
    tryKeys solve b cand (k :: rest) =
      if (solve (setC b cand (newConstraint k))).2 then
        solve (setC b cand (newConstraint k))
      else tryKeys solve b cand rest := rfl

/-- A successful branch run is the run of one of its keys. -/
theorem tryKeys_true (solve : Board → Board × Bool) (b : Board) (cand : ℕ) :
    ∀ (keys : List ℤ) (S : Board), tryKeys solve b cand keys = (S, true) →
      ∃ k ∈ keys, solve (setC b cand (newConstraint k)) = (S, true) := by
  intro keys
  induction keys with
  | nil =>
    intro S h
    exact absurd h (by simp [tryKeys])
  | cons k rest ih =>
    intro S h
    rw [tryKeys_cons] at h
    by_cases hs : (solve (setC b cand (newConstraint k))).2 = true
    · rw [if_pos hs] at h
      exact ⟨k, List.mem_cons_self _ _, h⟩
    · rw [if_neg hs] at h
      obtain ⟨k', hk', hrun⟩ := ih S h
      exact ⟨k', List.mem_cons_of_mem _ hk', hrun⟩

theorem CellsOK_puzzle2Constraints (p : List ℤ)
    (hdig : ∀ d ∈ p, 0 ≤ d ∧ d ≤ 9) : CellsOK (puzzle2Constraints p) := by
  intro i
  induction p generalizing i with
  | nil => intro x hx; simp [puzzle2Constraints, getC] at hx
  | cons d p ih =>
    cases i with
    | zero =>
      show newConstraint d ⊆ Finset.Icc 1 9
      have hd := hdig d (List.mem_cons_self _ _)
      unfold newConstraint
      by_cases h0 : d = 0
      · rw [if_neg (by simp [h0])]
      · rw [if_pos h0]
        intro x hx
        rw [Finset.mem_singleton] at hx
        subst hx
        rw [Finset.mem_Icc]
        omega
    | succ i => exact ih (fun e he => hdig e (List.mem_cons_of_mem _ he)) i

theorem puzzle2Constraints_length (p : List ℤ) :
    (puzzle2Constraints p).length = p.length := List.length_map _ _

/-- Soundness invariant of the search: whatever board a successful run
returns is complete, is a propagation fixed point, keeps the input length and
keeps all cells in the digit range. -/
theorem solveGo_sound (enum : Constraint → List ℤ) (henum : ValidEnum enum) :
    ∀ (f : ℕ) (b S : Board), CellsOK b → solveGo enum f b = (S, true) →
      S.length = b.length ∧ CellsOK S ∧ checkCompletion S = some true ∧
        applyAllConstraints S = (S, 0) := by
  intro f
  induction f with
  | zero =>
    intro b S _ h
    exact absurd h (by simp [solveGo])
  | succ f ih =>
    intro b S hok h
    have hloop_len : (propagateLoop b).length = b.length :=
      (propagateLoop_subset b).1
    have hloop_ok : CellsOK (propagateLoop b) := CellsOK_propagateLoop b hok
    rcases hcc : checkCompletion (propagateLoop b) with _ | bflag
    · rw [solveGo_invalid enum f b hcc] at h
      exact absurd (congrArg Prod.snd h) (by simp)
    · cases bflag with
      | true =>
        rw [solveGo_complete enum f b hcc] at h
        have hS : propagateLoop b = S := congrArg Prod.fst h
        subst hS
        exact ⟨hloop_len, hloop_ok, hcc, propagateLoop_fix b⟩
      | false =>
        rcases hgs : getSearchCandidate (propagateLoop b) with _ | cand
        · rw [solveGo_stuck enum f b hcc hgs] at h
          exact absurd (congrArg Prod.snd h) (by simp)
        · rw [solveGo_branch enum f b cand hcc hgs] at h
          obtain ⟨k, hkmem, hrun⟩ := tryKeys_true _ _ _ _ S h
          have hk : k ∈ getC (propagateLoop b) cand :=
            ((henum (getC (propagateLoop b) cand)).2 k).1 hkmem
          have hkIcc : k ∈ Finset.Icc (1 : ℤ) 9 := hloop_ok cand hk
          have hk0 : k ≠ 0 := by
            rw [Finset.mem_Icc] at hkIcc
            omega
          have hclone_ok : CellsOK (setC (propagateLoop b) cand (newConstraint k)) := by
            refine CellsOK_setC _ _ _ hloop_ok ?_
            unfold newConstraint
            rw [if_pos hk0]
            exact Finset.singleton_subset_iff.2 hkIcc
          obtain ⟨hSlen, hSok, hScomp, hSfix⟩ := ih _ S hclone_ok hrun
          rw [setC_length] at hSlen
          exact ⟨hSlen.trans hloop_len, hSok, hScomp, hSfix⟩


/-! ## Values of a solved board and validation -/

theorem constraints2Puzzle_length (S : Board) :
    (constraints2Puzzle S).length = S.length := List.length_map _ _

theorem constraints2Puzzle_get? (S : Board) :
    ∀ i : ℕ, i < S.length →
      (constraints2Puzzle S).get? i = some (constraintValue (getC S i)) := by
  induction S with
  | nil => intro i h; simp at h
  | cons c S ih =>
    intro i h
    cases i with
    | zero => rfl
    | succ i =>
      show (constraints2Puzzle S).get? i = _
      exact ih i (by simpa using h)

theorem getD_of_get? (l : List ℤ) (i : ℕ) (v : ℤ) (h : l.get? i = some v) :
    l.getD i 0 = v := by
  rw [List.getD_eq_getD_get?, h]
  rfl

theorem mem_of_mem_constraints2Puzzle (S : Board) (d : ℤ)
    (h : d ∈ constraints2Puzzle S) : ∃ s ∈ S, d = constraintValue s := by
  obtain ⟨s, hs, hd⟩ := List.mem_map.1 h
  exact ⟨s, hs, hd.symm⟩

/-- The 27 masks are 9 cells long, have no repeated cell, and index below
81. -/
theorem allMaskList_facts :
    ∀ m ∈ allMaskList, m.length = 9 ∧ m.Nodup ∧ ∀ i ∈ m, i < 81 := by decide

/-- On a complete fixed-point board, two different cells of one mask hold
different values. -/
theorem fixpoint_mask_distinct (S : Board)
    (hfix : applyAllConstraints S = (S, 0)) (hsing : ∀ s ∈ S, s.card = 1)
    (m : List ℕ) (hm : m ∈ allMaskList) :
    ∀ i ∈ m, ∀ j ∈ m, i ≠ j → i < S.length → j < S.length →
      constraintValue (getC S i) ≠ constraintValue (getC S j) := by
  intro i him j hjm hij hiS hjS
  have hpc := (applyAllConstraints_fix S (by rw [hfix])).2 m hm
  have h1 : (propagateConstraint1 S m).2 = 0 := by
    have := congrArg Prod.snd hpc
    unfold propagateConstraints at this
    simp only at this
    omega
  obtain ⟨-, hcurs⟩ := propagateConstraint1_fix S m h1
  obtain ⟨k, hkeq, -⟩ :=
    sortKeys_of_card_one (getC S i) (hsing _ (getC_mem S i hiS))
  obtain ⟨k', hkeq', -⟩ :=
    sortKeys_of_card_one (getC S j) (hsing _ (getC_mem S j hjS))
  have hnot := pc1Cur_zero_extract S m i k hkeq (hcurs i him) j hjm
    (fun he => hij he.symm)
  rw [hkeq, hkeq', constraintValue_singleton, constraintValue_singleton]
  intro he
  subst he
  exact hnot (by rw [hkeq']; exact Finset.mem_singleton_self k)

theorem vmGo_cons (q : List ℤ) (m : ℕ) (rest : List ℕ) (seen : ℤ → Bool)
    (v : ℤ) (h : q.get? m = some v) :
    vmGo q (m :: rest) seen =
      if v ≠ 0 then
        if 0 ≤ v ∧ v < 10 then
          if seen v then some false
          else vmGo q rest (setSeen seen v)
        else none
      else vmGo q rest (setSeen seen 0) := by
  conv_lhs => rw [vmGo]
  rw [h]

theorem vmGo_cons_oob (q : List ℤ) (m : ℕ) (rest : List ℕ) (seen : ℤ → Bool)
    (h : q.get? m = none) : vmGo q (m :: rest) seen = none := by
  conv_lhs => rw [vmGo]
  rw [h]

/-- `validateMask` accepts a mask whose values are in-range, distinct and not
yet seen. -/
theorem vmGo_true (q : List ℤ) :
    ∀ (mask : List ℕ) (seen : ℤ → Bool), mask.Nodup →
      (∀ i ∈ mask, ∃ v, q.get? i = some v ∧ 1 ≤ v ∧ v ≤ 9 ∧ seen v = false) →
      (∀ i ∈ mask, ∀ j ∈ mask, i ≠ j → q.getD i 0 ≠ q.getD j 0) →
      vmGo q mask seen = some true := by
  intro mask
  induction mask with
  | nil => intro seen _ _ _; rfl
  | cons m rest ih =>
    intro seen hnd hvals hdist
    obtain ⟨v, hget, h1, h9, hseen⟩ := hvals m (List.mem_cons_self _ _)
    have hv0 : v ≠ 0 := by omega
    rw [vmGo_cons q m rest seen v hget]
    rw [if_pos hv0, if_pos (by constructor <;> omega)]
    rw [hseen, if_neg Bool.false_ne_true]
    have hrec := ih (setSeen seen v)
      (List.Nodup.of_cons hnd) ?_ ?_
    · exact hrec
    · intro i hi
      obtain ⟨w, hgw, hw1, hw9, hws⟩ := hvals i (List.mem_cons_of_mem _ hi)
      refine ⟨w, hgw, hw1, hw9, ?_⟩
      have him : m ∉ rest := (List.nodup_cons.1 hnd).1
      have hne : i ≠ m := fun he => him (he ▸ hi)
      have hvw : w ≠ v := by
        have := hdist i (List.mem_cons_of_mem _ hi) m (List.mem_cons_self _ _) hne
        rw [getD_of_get? q i w hgw, getD_of_get? q m v hget] at this
        exact this
      simpa [setSeen, hvw] using hws
    · intro i hi j hj hij
      exact hdist i (List.mem_cons_of_mem _ hi) j (List.mem_cons_of_mem _ hj) hij

theorem vpGo_true (q : List ℤ) :
    ∀ ml : List (List ℕ), (∀ m ∈ ml, validateMask q m = some true) →
      vpGo q ml = some true := by
  intro ml
  induction ml with
  | nil => intro _; rfl
  | cons m ml ih =>
    intro h
    unfold vpGo
    rw [h m (List.mem_cons_self _ _)]
    exact ih (fun m' hm' => h m' (List.mem_cons_of_mem _ hm'))

/-- Main soundness step: a complete propagation fixed point with in-range
cells yields a puzzle whose digits are 1..9, whose 27 masks each hold every
digit exactly once, and which `ValidatePuzzle` accepts. -/
theorem solved_board_valid (S : Board) (hlen : S.length = 81)
    (hok : CellsOK S) (hcomp : checkCompletion S = some true)
    (hfix : applyAllConstraints S = (S, 0)) :
    (∀ d ∈ constraints2Puzzle S, 1 ≤ d ∧ d ≤ 9) ∧
    (∀ m ∈ allMaskList, ∀ d : ℤ, 1 ≤ d → d ≤ 9 →
      (m.map (fun i => (constraints2Puzzle S).getD i 0)).count d = 1) ∧
    ValidatePuzzle (constraints2Puzzle S) = some true := by
  have hsing : ∀ s ∈ S, s.card = 1 := (checkCompletion_complete S).1 hcomp
  -- each cell value is the key of its singleton, inside 1..9
  have hcell : ∀ i : ℕ, i < S.length →
      constraintValue (getC S i) ∈ Finset.Icc (1 : ℤ) 9 := by
    intro i hi
    obtain ⟨k, hkeq, -⟩ :=
      sortKeys_of_card_one (getC S i) (hsing _ (getC_mem S i hi))
    rw [hkeq, constraintValue_singleton]
    exact hok i (hkeq ▸ Finset.mem_singleton_self k)
  have hrange : ∀ d ∈ constraints2Puzzle S, 1 ≤ d ∧ d ≤ 9 := by
    intro d hd
    obtain ⟨s, hs, rfl⟩ := mem_of_mem_constraints2Puzzle S _ hd
    obtain ⟨i, hi, rfl⟩ := mem_getC S s hs
    have := hcell i hi
    rw [Finset.mem_Icc] at this
    exact this
  -- per-mask facts
  have hmask_vals : ∀ m ∈ allMaskList, ∀ i ∈ m,
      (constraints2Puzzle S).getD i 0 = constraintValue (getC S i) := by
    intro m hm i hi
    have hi81 : i < 81 := (allMaskList_facts m hm).2.2 i hi
    exact getD_of_get? _ _ _ (constraints2Puzzle_get? S i (by omega))
  have hdist : ∀ m ∈ allMaskList, ∀ i ∈ m, ∀ j ∈ m, i ≠ j →
      (constraints2Puzzle S).getD i 0 ≠ (constraints2Puzzle S).getD j 0 := by
    intro m hm i hi j hj hij
    have hi81 : i < 81 := (allMaskList_facts m hm).2.2 i hi
    have hj81 : j < 81 := (allMaskList_facts m hm).2.2 j hj
    rw [hmask_vals m hm i hi, hmask_vals m hm j hj]
    exact fixpoint_mask_distinct S hfix hsing m hm i hi j hj hij
      (by omega) (by omega)
  refine ⟨hrange, ?_, ?_⟩
  · -- counts: the nine distinct in-range values of a mask hit each digit once
    intro m hm d hd1 hd9
    set L : List ℤ := m.map (fun i => (constraints2Puzzle S).getD i 0) with hL
    have hnodupL : L.Nodup := by
      rw [hL, List.Nodup]
      rw [List.pairwise_map]
      refine List.Pairwise.imp_of_mem ?_ (allMaskList_facts m hm).2.1
      intro i j hi hj hij
      exact hdist m hm i hi j hj hij
    have hsubL : L.toFinset ⊆ Finset.Icc (1 : ℤ) 9 := by
      intro v hv
      rw [List.mem_toFinset] at hv
      rw [hL] at hv
      obtain ⟨i, hi, rfl⟩ := List.mem_map.1 hv
      rw [hmask_vals m hm i hi]
      exact hcell i (by
        have := (allMaskList_facts m hm).2.2 i hi
        omega)
    have hlenL : L.length = 9 := by
      rw [hL, List.length_map]
      exact (allMaskList_facts m hm).1
    have hcard : L.toFinset.card = 9 := by
      rw [List.toFinset_card_of_nodup hnodupL]
      exact hlenL
    have hIcc : (Finset.Icc (1 : ℤ) 9).card = 9 := by decide
    have heq : L.toFinset = Finset.Icc (1 : ℤ) 9 :=
      Finset.eq_of_subset_of_card_le hsubL (by omega)
    have hdL : d ∈ L := by
      rw [← List.mem_toFinset, heq, Finset.mem_Icc]
      omega
    exact List.count_eq_one_of_mem hnodupL hdL
  · -- ValidatePuzzle
    unfold ValidatePuzzle
    rw [if_neg (by rw [constraints2Puzzle_length, hlen]; simp [dim])]
    refine vpGo_true _ allMaskList (fun m hm => ?_)
    refine vmGo_true _ m _ (allMaskList_facts m hm).2.1 ?_
      (fun i hi j hj hij => hdist m hm i hi j hj hij)
    intro i hi
    have hi81 : i < 81 := (allMaskList_facts m hm).2.2 i hi
    refine ⟨constraintValue (getC S i),
      constraints2Puzzle_get? S i (by omega), ?_, ?_, rfl⟩
    · have := hcell i (by omega)
      rw [Finset.mem_Icc] at this
      omega
    · have := hcell i (by omega)
      rw [Finset.mem_Icc] at this
      omega


/-- C1 (soundness): for every puzzle of 81 digits in [0,9] and every
admissible map iteration order, if `SolvePuzzle` returns `solved = true`,
then every cell of the returned 81-digit result is in [1,9], every one of
the 27 group masks (rows, columns, boxes) contains each digit 1-9 exactly
once, and `ValidatePuzzle` of the result returns true. -/
theorem claim_C1 (enum : Constraint → List ℤ) (henum : ValidEnum enum)
    (p q : List ℤ) (hlen : p.length = 81)
    (hdig : ∀ d ∈ p, 0 ≤ d ∧ d ≤ 9)
    (hsolve : SolvePuzzle enum p = (q, true)) :
    (∀ d ∈ q, 1 ≤ d ∧ d ≤ 9) ∧
    (∀ m ∈ allMaskList, ∀ d : ℤ, 1 ≤ d → d ≤ 9 →
      (m.map (fun i => q.getD i 0)).count d = 1) ∧
    ValidatePuzzle q = some true := by
  unfold SolvePuzzle at hsolve
  rcases hsb : solveBySearch enum (puzzle2Constraints p) with ⟨S, flag⟩
  rw [hsb] at hsolve
  simp only [Prod.mk.injEq] at hsolve
  obtain ⟨hq, hflag⟩ := hsolve
  subst hflag
  rw [solveBySearch] at hsb
  have hok := CellsOK_puzzle2Constraints p hdig
  obtain ⟨hSlen, hSok, hScomp, hSfix⟩ :=
    solveGo_sound enum henum _ (puzzle2Constraints p) S hok hsb
  rw [puzzle2Constraints_length, hlen] at hSlen
  obtain ⟨h1, h2, h3⟩ := solved_board_valid S hSlen hSok hScomp hSfix
  subst hq
  exact ⟨h1, h2, h3⟩


/-! ## Round trip (C10) -/

theorem constraintValue_newConstraint (d : ℤ) (h0 : 0 ≤ d) (h9 : d ≤ 9) :
    constraintValue (newConstraint d) = d := by
  unfold newConstraint
  by_cases hd : d = 0
  · rw [if_neg (by simp [hd])]
    unfold constraintValue
    rw [if_neg (by decide)]
    exact hd.symm
  · rw [if_pos hd, constraintValue_singleton]

/-- C10: converting a puzzle to a constraint board and back is the identity
on 81-digit sequences with entries in [0,9]: clue digits map to singletons
and back, zeros map to the full nine-candidate set and back to 0. -/
theorem claim_C10 (p : List ℤ) (hlen : p.length = 81)
    (hdig : ∀ d ∈ p, 0 ≤ d ∧ d ≤ 9) :
    constraints2Puzzle (puzzle2Constraints p) = p := by
  unfold constraints2Puzzle puzzle2Constraints
  rw [List.map_map]
  have hmap : ∀ d ∈ p, (constraintValue ∘ newConstraint) d = id d := by
    intro d hd
    exact constraintValue_newConstraint d (hdig d hd).1 (hdig d hd).2
  rw [List.map_congr_left hmap, List.map_id]

/-! ## Completion classification (C2) -/

/-- C2 (amended): `checkCompletion` reports on the first cell in board order
whose set is not a singleton: an error (Invalid) when that first cell is
empty, `false` (Incomplete) when it has two or more candidates — even if a
later cell is empty — and `true` (Complete) exactly when every cell is a
singleton. -/
theorem claim_C2_amended (b : Board) :
    (checkCompletion b = none ↔
      ∃ i, i < b.length ∧ (getC b i).card = 0 ∧
        ∀ j, j < i → (getC b j).card = 1) ∧
    (checkCompletion b = some false ↔
      ∃ i, i < b.length ∧ 2 ≤ (getC b i).card ∧
        ∀ j, j < i → (getC b j).card = 1) ∧
    (checkCompletion b = some true ↔
      ∀ i, i < b.length → (getC b i).card = 1) := by
  induction b with
  | nil =>
    refine ⟨?_, ?_, ?_⟩ <;> simp [checkCompletion]
  | cons c b ih =>
    obtain ⟨ihn, ihf, iht⟩ := ih
    unfold checkCompletion
    by_cases h0 : c.card = 0
    · rw [if_pos h0]
      refine ⟨?_, ?_, ?_⟩
      · simp only [true_iff]
        exact ⟨0, by simp, by simpa only [getC] using h0, fun j hj => by omega⟩
      · constructor
        · intro h; exact absurd h (by simp)
        · rintro ⟨i, hi, h2, hmin⟩
          cases i with
          | zero => simp only [getC] at h2; omega
          | succ i =>
            have := hmin 0 (by omega)
            simp only [getC] at this
            omega
      · constructor
        · intro h; exact absurd h (by simp)
        · intro h
          have := h 0 (by simp)
          simp only [getC] at this
          omega
    · rw [if_neg h0]
      by_cases h1 : 1 < c.card
      · rw [if_pos h1]
        refine ⟨?_, ?_, ?_⟩
        · constructor
          · intro h; exact absurd h (by simp)
          · rintro ⟨i, hi, h2, hmin⟩
            cases i with
            | zero => simp only [getC] at h2; omega
            | succ i =>
              have := hmin 0 (by omega)
              simp only [getC] at this
              omega
        · simp only [true_iff]
          exact ⟨0, by simp, by simpa only [getC] using h1, fun j hj => by omega⟩
        · constructor
          · intro h; exact absurd h (by simp)
          · intro h
            have := h 0 (by simp)
            simp only [getC] at this
            omega
      · rw [if_neg h1]
        have hc1 : c.card = 1 := by omega
        refine ⟨?_, ?_, ?_⟩
        · rw [ihn]
          constructor
          · rintro ⟨i, hi, hz, hmin⟩
            refine ⟨i + 1, by simpa using hi, by simpa [getC] using hz, ?_⟩
            intro j hj
            cases j with
            | zero => simpa [getC] using hc1
            | succ j => simpa [getC] using hmin j (by omega)
          · rintro ⟨i, hi, hz, hmin⟩
            cases i with
            | zero => simp only [getC] at hz; omega
            | succ i =>
              refine ⟨i, by simpa using hi, by simpa [getC] using hz, ?_⟩
              intro j hj
              have := hmin (j + 1) (by omega)
              simpa [getC] using this
        · rw [ihf]
          constructor
          · rintro ⟨i, hi, h2, hmin⟩
            refine ⟨i + 1, by simpa using hi, by simpa [getC] using h2, ?_⟩
            intro j hj
            cases j with
            | zero => simpa [getC] using hc1
            | succ j => simpa [getC] using hmin j (by omega)
          · rintro ⟨i, hi, h2, hmin⟩
            cases i with
            | zero => simp [getC] at h2; omega
            | succ i =>
              refine ⟨i, by simpa using hi, by simpa [getC] using h2, ?_⟩
              intro j hj
              have := hmin (j + 1) (by omega)
              simpa [getC] using this
        · rw [iht]
          constructor
          · intro h i hi
            cases i with
            | zero => simpa [getC] using hc1
            | succ i => simpa [getC] using h i (by simpa using hi)
          · intro h i hi
            have := h (i + 1) (by simpa using hi)
            simpa [getC] using this

/-! ## Candidate selection (C7) -/

/-- C7: the branching cell is found by scanning candidate-set sizes from 2 up
to 9 and taking the first (lowest-index) cell of the first size present; when
no cell has a size in that range the lookup errors and `solveBySearch`
returns the propagated board with failure. -/
theorem claim_C7 (b : Board) (hcards : ∀ s ∈ b, s.card ≤ 9) :
    (getSearchCandidate b = none ↔ ∀ s ∈ b, s.card ≤ 1) ∧
    (∀ j, getSearchCandidate b = some j →
      j < b.length ∧ 2 ≤ (getC b j).card ∧ (getC b j).card ≤ 9 ∧
      (∀ k, k < j → (getC b k).card ≠ (getC b j).card) ∧
      (∀ s ∈ b, 2 ≤ s.card → (getC b j).card ≤ s.card)) ∧
    (∀ (enum : Constraint → List ℤ) (f : ℕ) (b' : Board),
      checkCompletion (propagateLoop b') = some false →
      getSearchCandidate (propagateLoop b') = none →
      solveGo enum (f + 1) b' = (propagateLoop b', false)) := by
  refine ⟨getSearchCandidate_none b hcards, ?_, ?_⟩
  · intro j hj
    obtain ⟨l1, n, l2, heq, hnone, hsome⟩ := gscFrom_some b _ j hj
    obtain ⟨-, hlt, hcard, hmin⟩ := findCellOfSize_some n b 0 j hsome
    simp only [Nat.sub_zero] at hlt hcard hmin
    have hn29 : 2 ≤ n ∧ n ≤ 9 := by
      have : n ∈ ([2, 3, 4, 5, 6, 7, 8, 9] : List ℕ) := by
        rw [heq]
        exact List.mem_append_right _ (List.mem_cons_self _ _)
      simp at this
      omega
    refine ⟨hlt, by omega, by omega, ?_, ?_⟩
    · intro k hk
      rw [hcard]
      exact hmin k hk
    · intro s hs h2s
      rw [hcard]
      by_contra hgt
      push_neg at hgt
      have hs9 := hcards s hs
      have hmem : s.card ∈ ([2, 3, 4, 5, 6, 7, 8, 9] : List ℕ) := by
        simp
        omega
      rw [heq] at hmem
      have hpair : (l1 ++ n :: l2).Pairwise (· < ·) := by
        rw [← heq]
        decide
      rcases List.mem_append.1 hmem with hm | hm
      · exact hnone s.card hm s hs rfl
      · rcases List.mem_cons.1 hm with he | hm
        · omega
        · have := (List.pairwise_cons.1 (List.pairwise_append.1 hpair).2.1).1
            s.card hm
          omega
  · intro enum f b' hcc hgs
    exact solveGo_stuck enum f b' hcc hgs

/-! ## Termination measures (C9) -/

theorem totalSize_le (b1 : Board) : ∀ b2 : Board, b1.length = b2.length →
    (∀ i, getC b1 i ⊆ getC b2 i) → totalSize b1 ≤ totalSize b2 := by
  induction b1 with
  | nil => intro b2 _ _; exact Nat.zero_le _
  | cons c b1 ih =>
    intro b2 hlen hsub
    cases b2 with
    | nil => simp at hlen
    | cons c2 b2 =>
      have hhead : c.card ≤ c2.card := Finset.card_le_card (hsub 0)
      have htail := ih b2 (by simpa using hlen) (fun i => hsub (i + 1))
      simp only [totalSize]
      omega

theorem totalSize_propagateLoop_le (b : Board) :
    totalSize (propagateLoop b) ≤ totalSize b :=
  totalSize_le _ b (propagateLoop_subset b).1 (propagateLoop_subset b).2

/-- With an admissible enumeration and in-range cells, any sufficient bound
computes the same result: the Go recursion reaches its base cases before the
bound runs out. -/
theorem solveGo_fuel_irrelevant (enum : Constraint → List ℤ)
    (henum : ValidEnum enum) :
    ∀ (f : ℕ) (b : Board), CellsOK b → totalSize b < f →
      solveGo enum f b = solveGo enum (totalSize b + 1) b := by
  intro f
  induction f using Nat.strong_induction_on with
  | _ f ih =>
    intro b hok hf
    obtain ⟨f', rfl⟩ : ∃ f', f = f' + 1 := ⟨f - 1, by omega⟩
    rw [solveGo_succ, solveGo_succ]
    rcases hcc : checkCompletion (propagateLoop b) with _ | bflag
    · rw [solveStep_invalid enum _ b hcc, solveStep_invalid enum _ b hcc]
    · cases bflag with
      | true =>
        rw [solveStep_complete enum _ b hcc, solveStep_complete enum _ b hcc]
      | false =>
        rcases hgs : getSearchCandidate (propagateLoop b) with _ | cand
        · rw [solveStep_stuck enum _ b hcc hgs, solveStep_stuck enum _ b hcc hgs]
        · rw [solveStep_branch enum _ b cand hcc hgs,
            solveStep_branch enum _ b cand hcc hgs]
          have hloop_ok : CellsOK (propagateLoop b) :=
            CellsOK_propagateLoop b hok
          have hloop_le : totalSize (propagateLoop b) ≤ totalSize b :=
            totalSize_propagateLoop_le b
          obtain ⟨hclt, hc2, -⟩ :=
            getSearchCandidate_some (propagateLoop b) cand hgs
          have hkeys : ∀ k ∈ enum (getC (propagateLoop b) cand),
              k ∈ getC (propagateLoop b) cand :=
            fun k hk => ((henum _).2 k).1 hk
          -- pointwise equality of the two branch runs
          revert hkeys
          generalize enum (getC (propagateLoop b) cand) = keys
          intro hkeys
          induction keys with
          | nil => rfl
          | cons k rest ihk =>
            have hk := hkeys k (List.mem_cons_self _ _)
            have hkI : k ∈ Finset.Icc (1 : ℤ) 9 := hloop_ok cand hk
            have hk0 : k ≠ 0 := by
              rw [Finset.mem_Icc] at hkI
              omega
            have hnew1 : (newConstraint k).card = 1 := by
              unfold newConstraint
              rw [if_pos hk0]
              simp
            have hset := totalSize_setC (propagateLoop b) cand
              (newConstraint k) hclt
            have hcl : totalSize (setC (propagateLoop b) cand
                (newConstraint k)) < totalSize (propagateLoop b) := by
              omega
            have hclok : CellsOK (setC (propagateLoop b) cand
                (newConstraint k)) := by
              refine CellsOK_setC _ _ _ hloop_ok ?_
              unfold newConstraint
              rw [if_pos hk0]
              exact Finset.singleton_subset_iff.2 hkI
            have hrec1 : solveGo enum f' (setC (propagateLoop b) cand
                (newConstraint k)) = solveGo enum (totalSize (setC
                (propagateLoop b) cand (newConstraint k)) + 1) _ :=
              ih f' (by omega) _ hclok (by omega)
            have hrec2 : solveGo enum (totalSize b) (setC (propagateLoop b)
                cand (newConstraint k)) = solveGo enum (totalSize (setC
                (propagateLoop b) cand (newConstraint k)) + 1) _ :=
              ih (totalSize b) (by omega) _ hclok (by omega)
            rw [tryKeys_cons, tryKeys_cons, hrec1, hrec2,
              ihk (fun k' hk' => hkeys k' (List.mem_cons_of_mem _ hk'))]

/-- C9: termination of `solveBySearch`.  A propagation pass never enlarges
any candidate set; its change count is exactly the drop in `totalSize`, so
the fixed-point loop terminates; each branch replaces a set of two or more
candidates by a singleton, so `totalSize` strictly decreases down every
recursion path; and consequently any two sufficient recursion bounds give
the same run. -/
theorem claim_C9 (enum : Constraint → List ℤ) (henum : ValidEnum enum) :
    (∀ (b : Board) (i : ℕ), getC (applyAllConstraints b).1 i ⊆ getC b i) ∧
    (∀ b : Board, totalSize (applyAllConstraints b).1 +
      (applyAllConstraints b).2 = totalSize b) ∧
    (∀ (b : Board) (cand : ℕ) (k : ℤ), getSearchCandidate b = some cand →
      k ≠ 0 → totalSize (setC b cand (newConstraint k)) < totalSize b) ∧
    (∀ (f g : ℕ) (b : Board), CellsOK b → totalSize b < f →
      totalSize b < g → solveGo enum f b = solveGo enum g b) := by
  refine ⟨fun b i => (applyAllConstraints_subset b).2 i,
    applyAllConstraints_size, ?_, ?_⟩
  · intro b cand k hgs hk0
    obtain ⟨hlt, h2, -⟩ := getSearchCandidate_some b cand hgs
    have hset := totalSize_setC b cand (newConstraint k) hlt
    have hnew1 : (newConstraint k).card = 1 := by
      unfold newConstraint
      rw [if_pos hk0]
      simp
    omega
  · intro f g b hok hf hg
    rw [solveGo_fuel_irrelevant enum henum f b hok hf,
      solveGo_fuel_irrelevant enum henum g b hok hg]

/-! ## Clone isolation (C8) -/

theorem cloneBoard_spec (bs : List ℕ) : ∀ h : Heap, RefsValid h bs →
    (∀ n, n < h.next → (cloneBoard h bs).1.cells n = h.cells n) ∧
    h.next ≤ (cloneBoard h bs).1.next ∧
    (∀ r' ∈ (cloneBoard h bs).2,
      h.next ≤ r' ∧ r' < (cloneBoard h bs).1.next) ∧
    (∀ (i : ℕ) (r r' : ℕ), bs.get? i = some r →
      (cloneBoard h bs).2.get? i = some r' →
      (cloneBoard h bs).1.cells r' = h.cells r) := by
  induction bs with
  | nil =>
    intro h _
    exact ⟨fun n _ => rfl, le_refl _, by simp [cloneBoard], by simp⟩
  | cons r rest ih =>
    intro h hv
    have hr : r < h.next := hv r (List.mem_cons_self _ _)
    have hv1 : RefsValid (constraintClone h r).1 rest := by
      intro r2 hr2
      have := hv r2 (List.mem_cons_of_mem _ hr2)
      show r2 < h.next + 1
      omega
    obtain ⟨ih1, ih2, ih3, ih4⟩ := ih (constraintClone h r).1 hv1
    have hfst : (cloneBoard h (r :: rest)).1 =
        (cloneBoard (constraintClone h r).1 rest).1 := rfl
    have hsnd : (cloneBoard h (r :: rest)).2 =
        h.next :: (cloneBoard (constraintClone h r).1 rest).2 := rfl
    have hnext1 : (constraintClone h r).1.next = h.next + 1 := rfl
    rw [hnext1] at ih2 ih3
    have hcells1 : ∀ n, n ≠ h.next →
        (constraintClone h r).1.cells n = h.cells n := by
      intro n hn
      show (if n = h.next then h.cells r else h.cells n) = h.cells n
      rw [if_neg hn]
    have hcopy : (constraintClone h r).1.cells h.next = h.cells r := by
      show (if h.next = h.next then h.cells r else h.cells h.next) = h.cells r
      rw [if_pos rfl]
    refine ⟨?_, ?_, ?_, ?_⟩
    · intro n hn
      rw [hfst, ih1 n (by omega), hcells1 n (by omega)]
    · rw [hfst]
      omega
    · intro r2 hr2
      rw [hsnd] at hr2
      rw [hfst]
      rcases List.mem_cons.1 hr2 with rfl | hr2
      · exact ⟨le_refl _, by omega⟩
      · have := ih3 r2 hr2
        exact ⟨by omega, this.2⟩
    · intro i ra rb hga hgb
      rw [hsnd] at hgb
      rw [hfst]
      cases i with
      | zero =>
        injection hga with hga
        injection hgb with hgb
        subst hga
        subst hgb
        rw [ih1 h.next (by omega), hcopy]
      | succ i =>
        have htail := ih4 i ra rb hga hgb
        rw [htail]
        refine hcells1 ra ?_
        have hva := hv ra (List.mem_cons_of_mem _ (List.get?_mem hga))
        omega

/-- C8: `cloneBoard` is a fully independent deep copy.  In the heap model of
Go slices of map references: cloning never changes the original cells, the
copies hold equal key sets position by position, deleting a key through a
clone reference leaves every original cell untouched and conversely, and a
fresh map allocation (replacing a clone slot) leaves the original cells
untouched. -/
theorem claim_C8 (h : Heap) (bs : List ℕ) (hv : RefsValid h bs) :
    (∀ r ∈ bs, (cloneBoard h bs).1.cells r = h.cells r) ∧
    (∀ (i : ℕ) (r r' : ℕ), bs.get? i = some r →
      (cloneBoard h bs).2.get? i = some r' →
      (cloneBoard h bs).1.cells r' = h.cells r) ∧
    (∀ r' ∈ (cloneBoard h bs).2, ∀ (key : ℤ), ∀ r ∈ bs,
      (deleteKey (cloneBoard h bs).1 r' key).cells r =
        (cloneBoard h bs).1.cells r) ∧
    (∀ r ∈ bs, ∀ (key : ℤ), ∀ r' ∈ (cloneBoard h bs).2,
      (deleteKey (cloneBoard h bs).1 r key).cells r' =
        (cloneBoard h bs).1.cells r') ∧
    (∀ (s : Constraint), ∀ r ∈ bs,
      (allocConstraint (cloneBoard h bs).1 s).1.cells r =
        (cloneBoard h bs).1.cells r) := by
  obtain ⟨h1, h2, h3, h4⟩ := cloneBoard_spec bs h hv
  have hdisj : ∀ r ∈ bs, ∀ r' ∈ (cloneBoard h bs).2, r ≠ r' := by
    intro r hr r' hr'
    have := hv r hr
    have := (h3 r' hr').1
    omega
  refine ⟨fun r hr => h1 r (hv r hr), h4, ?_, ?_, ?_⟩
  · intro r' hr' key r hr
    show (if r = r' then _ else (cloneBoard h bs).1.cells r) = _
    rw [if_neg (hdisj r hr r' hr')]
  · intro r hr key r' hr'
    show (if r' = r then _ else (cloneBoard h bs).1.cells r') = _
    rw [if_neg (fun he => hdisj r hr r' hr' he.symm)]
  · intro s r hr
    show (if r = (cloneBoard h bs).1.next then s
      else (cloneBoard h bs).1.cells r) = _
    rw [if_neg (by
      have := hv r hr
      have := h2
      omega)]

/-! ## Branch order (C4, amended part) -/

/-- C4 (amended): at a branch point the solver tries exactly the candidate
keys of the chosen cell, in the (unspecified) map iteration order: cloning
the board, pinning the cell, and recursing; the first success is returned,
and the branch succeeds exactly when some candidate's branch succeeds. -/
theorem claim_C4_amended :
    (∀ (solve : Board → Board × Bool) (b : Board) (cand : ℕ)
      (keys : List ℤ),
      ((tryKeys solve b cand keys).2 = true ↔
        ∃ k ∈ keys, (solve (setC b cand (newConstraint k))).2 = true)) ∧
    (∀ (solve : Board → Board × Bool) (b : Board) (cand : ℕ)
      (l1 : List ℤ) (k : ℤ) (l2 : List ℤ),
      (∀ k' ∈ l1, (solve (setC b cand (newConstraint k'))).2 = false) →
      (solve (setC b cand (newConstraint k))).2 = true →
      tryKeys solve b cand (l1 ++ k :: l2) =
        solve (setC b cand (newConstraint k))) ∧
    (∀ (enum : Constraint → List ℤ), ValidEnum enum →
      ∀ (f : ℕ) (b : Board) (cand : ℕ),
      checkCompletion (propagateLoop b) = some false →
      getSearchCandidate (propagateLoop b) = some cand →
      ((solveGo enum (f + 1) b).2 = true ↔
        ∃ k ∈ getC (propagateLoop b) cand,
          (solveGo enum f (setC (propagateLoop b) cand
            (newConstraint k))).2 = true)) := by
  have part1 : ∀ (solve : Board → Board × Bool) (b : Board) (cand : ℕ)
      (keys : List ℤ),
      ((tryKeys solve b cand keys).2 = true ↔
        ∃ k ∈ keys, (solve (setC b cand (newConstraint k))).2 = true) := by
    intro solve b cand keys
    induction keys with
    | nil => simp [tryKeys]
    | cons k rest ihk =>
      rw [tryKeys_cons]
      by_cases hs : (solve (setC b cand (newConstraint k))).2 = true
      · rw [if_pos hs]
        constructor
        · intro _
          exact ⟨k, List.mem_cons_self _ _, hs⟩
        · intro _
          exact hs
      · rw [if_neg hs]
        rw [ihk]
        constructor
        · rintro ⟨k', hk', hrun⟩
          exact ⟨k', List.mem_cons_of_mem _ hk', hrun⟩
        · rintro ⟨k', hk', hrun⟩
          rcases List.mem_cons.1 hk' with rfl | hk'
          · exact absurd hrun hs
          · exact ⟨k', hk', hrun⟩
  refine ⟨part1, ?_, ?_⟩
  · intro solve b cand l1
    induction l1 with
    | nil =>
      intro k l2 _ hk
      rw [List.nil_append, tryKeys_cons, if_pos hk]
    | cons k' l1 ihl =>
      intro k l2 hfail hk
      rw [List.cons_append, tryKeys_cons,
        if_neg (by rw [hfail k' (List.mem_cons_self _ _)]; simp)]
      exact ihl k l2 (fun x hx => hfail x (List.mem_cons_of_mem _ hx)) hk
  · intro enum henum f b cand hcc hgs
    rw [solveGo_branch enum f b cand hcc hgs, part1]
    constructor
    · rintro ⟨k, hk, hrun⟩
      exact ⟨k, ((henum _).2 k).1 hk, hrun⟩
    · rintro ⟨k, hk, hrun⟩
      exact ⟨k, ((henum _).2 k).2 hk, hrun⟩


/-! ## Validation characterization (C5) -/

/-- Occurrences of a value in a list (duplicate counting for `validateMask`
reasoning). -/
def countVal (d : ℤ) : List ℤ → ℕ
  | [] => 0
  | v :: l => (if v = d then 1 else 0) + countVal d l

theorem countVal_pos_of_mem (d : ℤ) : ∀ l : List ℤ, d ∈ l → 1 ≤ countVal d l := by
  intro l
  induction l with
  | nil => intro h; simp at h
  | cons v l ih =>
    intro h
    rcases List.mem_cons.1 h with rfl | h
    · simp [countVal]
    · have := ih h
      simp only [countVal]
      omega

theorem countVal_eq_zero_of_not_mem (d : ℤ) :
    ∀ l : List ℤ, d ∉ l → countVal d l = 0 := by
  intro l
  induction l with
  | nil => intro _; rfl
  | cons v l ih =>
    intro h
    have hvd : v ≠ d := fun he => h (he ▸ List.mem_cons_self _ _)
    have hdl : d ∉ l := fun hd => h (List.mem_cons_of_mem _ hd)
    simp only [countVal, if_neg hvd, ih hdl]

/-- "No nonzero value occurs twice" as a count bound equals the pairwise
form. -/
theorem countVal_le_one_iff (L : List ℤ) :
    (∀ d : ℤ, d ≠ 0 → countVal d L ≤ 1) ↔
      L.Pairwise (fun a b => a ≠ 0 → a ≠ b) := by
  induction L with
  | nil =>
    constructor
    · intro _
      exact List.Pairwise.nil
    · intro _ d _
      simp [countVal]
  | cons a l ih =>
    constructor
    · intro h
      rw [List.pairwise_cons]
      refine ⟨?_, ih.1 (fun d hd => ?_)⟩
      · intro b hb ha0 hab
        subst hab
        have hcnt := countVal_pos_of_mem a l hb
        have := h a ha0
        simp [countVal] at this
        omega
      · have := h d hd
        simp only [countVal] at this
        omega
    · intro hp d hd
      rw [List.pairwise_cons] at hp
      simp only [countVal]
      by_cases hda : a = d
      · subst hda
        have hnot : a ∉ l := fun hmem => hp.1 a hmem hd rfl
        rw [if_pos rfl, countVal_eq_zero_of_not_mem a l hnot]
      · rw [if_neg hda]
        have := ih.2 hp.2 d hd
        omega

/-- `validateMask` scanning characterized: with in-range values and in-bounds
indices, the scan accepts exactly when no nonzero value occurs twice among
the masked cells or in the already-seen table. -/
theorem vmGo_true_iff (q : List ℤ) (hrange : ∀ v ∈ q, 0 ≤ v ∧ v ≤ 9) :
    ∀ (mask : List ℕ) (seen : ℤ → Bool), (∀ i ∈ mask, i < q.length) →
      (vmGo q mask seen = some true ↔
        ∀ d : ℤ, d ≠ 0 →
          countVal d (mask.map (fun i => q.getD i 0)) +
            (if seen d then 1 else 0) ≤ 1) := by
  intro mask
  induction mask with
  | nil =>
    intro seen _
    simp only [vmGo, List.map_nil, true_iff]
    intro d _
    simp only [countVal]
    split <;> omega
  | cons m rest ihm =>
    intro seen hidx
    have hm : m < q.length := hidx m (List.mem_cons_self _ _)
    have hv : q.get? m = some (q.get ⟨m, hm⟩) := List.get?_eq_get hm
    set v := q.get ⟨m, hm⟩ with hvdef
    have hv09 := hrange v (q.get_mem _ _)
    have hgd : q.getD m 0 = v := getD_of_get? q m v hv
    have htail : ∀ i ∈ rest, i < q.length :=
      fun i hi => hidx i (List.mem_cons_of_mem _ hi)
    rw [vmGo_cons q m rest seen v hv]
    have hone : (if (true : Bool) = true then (1 : ℕ) else 0) = 1 := rfl
    have hzero : (if (false : Bool) = true then (1 : ℕ) else 0) = 0 := rfl
    by_cases hv0 : v = 0
    · rw [if_neg (by simp [hv0])]
      rw [ihm _ htail]
      have halign : ∀ d : ℤ, d ≠ 0 →
          ((countVal d (rest.map (fun i => q.getD i 0)) +
            (if setSeen seen 0 d = true then 1 else 0) ≤ 1) ↔
          (countVal d ((m :: rest).map (fun i => q.getD i 0)) +
            (if seen d = true then 1 else 0) ≤ 1)) := by
        intro d hd
        have h1 : setSeen seen 0 d = seen d := by simp [setSeen, hd]
        have h2 : (if q.getD m 0 = d then (1 : ℕ) else 0) = 0 := by
          rw [hgd, hv0]
          exact if_neg (fun he => hd he.symm)
        simp only [List.map_cons, countVal]
        rw [h1, h2]
        omega
      constructor
      · intro h d hd
        exact (halign d hd).1 (h d hd)
      · intro h d hd
        exact (halign d hd).2 (h d hd)
    · rw [if_pos hv0, if_pos ⟨by omega, by omega⟩]
      rcases hseen : seen v with _ | _
      · -- not yet seen: recurse with the updated table
        rw [if_neg (by simp)]
        rw [ihm _ htail]
        have halign : ∀ d : ℤ, d ≠ 0 →
            ((countVal d (rest.map (fun i => q.getD i 0)) +
              (if setSeen seen v d = true then 1 else 0) ≤ 1) ↔
            (countVal d ((m :: rest).map (fun i => q.getD i 0)) +
              (if seen d = true then 1 else 0) ≤ 1)) := by
          intro d hd
          simp only [List.map_cons, countVal]
          by_cases hdv : d = v
          · subst hdv
            have h1 : setSeen seen v v = true := by simp [setSeen]
            have h2 : (if q.getD m 0 = v then (1 : ℕ) else 0) = 1 := by
              rw [hgd]
              exact if_pos rfl
            have h3 : (if seen v = true then (1 : ℕ) else 0) = 0 := by
              simp [hseen]
            rw [h1, h2, h3, hone]
            omega
          · have h1 : setSeen seen v d = seen d := by simp [setSeen, hdv]
            have h2 : (if q.getD m 0 = d then (1 : ℕ) else 0) = 0 := by
              rw [hgd]
              exact if_neg (fun he => hdv he.symm)
            rw [h1, h2]
            omega
        constructor
        · intro h d hd
          exact (halign d hd).1 (h d hd)
        · intro h d hd
          exact (halign d hd).2 (h d hd)
      · -- already seen: the scan answers false, and the count bound fails
        rw [if_pos rfl]
        constructor
        · intro h
          exact absurd h (by simp)
        · intro h
          exfalso
          have := h v hv0
          simp only [List.map_cons, countVal] at this
          have h2 : (if q.getD m 0 = v then (1 : ℕ) else 0) = 1 := by
            rw [hgd]
            exact if_pos rfl
          have h3 : (if seen v = true then (1 : ℕ) else 0) = 1 := by
            simp [hseen]
          rw [h2, h3] at this
          omega

theorem validateMask_true_iff (q : List ℤ)
    (hrange : ∀ v ∈ q, 0 ≤ v ∧ v ≤ 9) (mask : List ℕ)
    (hidx : ∀ i ∈ mask, i < q.length) :
    validateMask q mask = some true ↔ MaskNoDup q mask := by
  unfold validateMask MaskNoDup
  rw [vmGo_true_iff q hrange mask _ hidx, ← countVal_le_one_iff]
  constructor
  · intro h d hd
    have := h d hd
    simpa using this
  · intro h d hd
    have := h d hd
    simpa using this

theorem vpGo_true_iff (q : List ℤ) : ∀ ml : List (List ℕ),
    vpGo q ml = some true ↔ ∀ m ∈ ml, validateMask q m = some true := by
  intro ml
  induction ml with
  | nil => simp [vpGo]
  | cons m ml ih =>
    unfold vpGo
    rcases hvm : validateMask q m with _ | fl
    · simp only
      constructor
      · intro h
        exact absurd h (by simp)
      · intro h
        exact absurd hvm (by rw [h m (List.mem_cons_self _ _)]; simp)
    · cases fl with
      | false =>
        simp only
        constructor
        · intro h
          exact absurd h (by simp)
        · intro h
          exact absurd hvm (by rw [h m (List.mem_cons_self _ _)]; simp)
      | true =>
        simp only
        rw [ih]
        constructor
        · intro h m' hm'
          rcases List.mem_cons.1 hm' with rfl | hm'
          · exact hvm
          · exact h m' hm'
        · intro h m' hm'
          exact h m' (List.mem_cons_of_mem _ hm')

/-- C5 (amended): a length other than 81 is rejected regardless of contents,
and on sequences whose values lie in [0,9] (where no out-of-range access can
happen) `ValidatePuzzle` returns true exactly when the length is 81 and no
group mask holds the same nonzero digit twice. -/
theorem claim_C5_amended (p : List ℤ) :
    (p.length ≠ 81 → ValidatePuzzle p = some false) ∧
    ((∀ v ∈ p, 0 ≤ v ∧ v ≤ 9) →
      (ValidatePuzzle p = some true ↔
        p.length = 81 ∧ ∀ m ∈ allMaskList, MaskNoDup p m)) := by
  constructor
  · intro hlen
    unfold ValidatePuzzle
    rw [if_pos (by simpa [dim] using hlen)]
  · intro hrange
    by_cases hlen : p.length = 81
    · unfold ValidatePuzzle
      rw [if_neg (by simp [dim, hlen])]
      rw [vpGo_true_iff]
      constructor
      · intro h
        refine ⟨hlen, fun m hm => ?_⟩
        refine (validateMask_true_iff p hrange m ?_).1 (h m hm)
        intro i hi
        have := (allMaskList_facts m hm).2.2 i hi
        omega
      · rintro ⟨-, h⟩ m hm
        refine (validateMask_true_iff p hrange m ?_).2 (h m hm)
        intro i hi
        have := (allMaskList_facts m hm).2.2 i hi
        omega
    · unfold ValidatePuzzle
      rw [if_pos (by simpa [dim] using hlen)]
      constructor
      · intro h
        exact absurd h (by simp)
      · rintro ⟨hl, -⟩
        exact absurd hl hlen


/-
End of the sealed symbolic development: below, concrete witness and
counterexample runs evaluate `propagateLoop` again.
-/
end SealedPropagation

/-! ## Concrete evaluations: witnesses, counterexamples and bug runs -/

theorem cellsOK_single : CellsOK [({1} : Constraint)] := by
  intro i
  cases i with
  | zero => decide
  | succ i =>
    rw [show getC [({1} : Constraint)] (i + 1) = (∅ : Finset ℤ) from rfl]
    exact Finset.empty_subset _

set_option maxRecDepth 1000000 in
/-- Witness for C1 at a concrete run: the solved grid solves to itself and
validates. -/
theorem claim_C1_witness :
    (∀ d ∈ solvedGrid, 1 ≤ d ∧ d ≤ 9) ∧
    (∀ m ∈ allMaskList, ∀ d : ℤ, 1 ≤ d → d ≤ 9 →
      (m.map (fun i => solvedGrid.getD i 0)).count d = 1) ∧
    ValidatePuzzle solvedGrid = some true :=
  claim_C1 ascEnum ascEnum_valid solvedGrid solvedGrid (by decide) (by decide)
    (by decide)

/-- Counterexample for C2 as stated: this board has an empty cell (cell 1),
so the claim says `checkCompletion` classifies it Invalid (an error), but the
scan answers Incomplete (`false` with no error) at the first non-singleton
cell, cell 0. -/
theorem claim_C2_counterexample :
    (∃ s ∈ cexBoard, s.card = 0) ∧ checkCompletion cexBoard = some false := by
  decide

/-- Witness for C2's amended classification at the counterexample board. -/
theorem claim_C2_witness :
    ∃ i, i < cexBoard.length ∧ 2 ≤ (getC cexBoard i).card ∧
      ∀ j, j < i → (getC cexBoard j).card = 1 :=
  (claim_C2_amended cexBoard).2.1.mp (by decide)

/-- C3 run at the failing input: on `bugBoard0` digit 1's only carrier in the
row-0 mask is the non-singleton cell 0, yet Rule B leaves the board unchanged
with zero changes (the `found > 0` guard excludes cell index 0 although the
not-found sentinel is -1); the same situation shifted to cell 1 is pinned as
the spec describes. -/
theorem claim_C3_bug :
    propagateConstraint2 bugBoard0 (rowMask 0) = (bugBoard0, 0) ∧
    propagateConstraint2 bugBoard1 (rowMask 0) = (bugBoard1Fixed, 1) := by
  decide

set_option maxRecDepth 1000000 in
/-- Counterexample for C4 as stated: Go map iteration order is unspecified,
so the claimed ascending trial order would have to hold under every
admissible enumeration of the candidate keys; under the equally admissible
descending enumeration the search returns the other completion of
`twoSolPuzzle`, so the branch loop's behaviour is not that of ascending
order. -/
theorem claim_C4_counterexample :
    ValidEnum descEnum ∧ ValidEnum ascEnum ∧
    SolvePuzzle descEnum twoSolPuzzle = (solvedGridB, true) ∧
    SolvePuzzle ascEnum twoSolPuzzle = (solvedGrid, true) ∧
    solvedGridB ≠ solvedGrid :=
  ⟨descEnum_valid, ascEnum_valid, by decide, by decide, by decide⟩

/-- Witness for C4's amended branch description at a concrete branch. -/
theorem claim_C4_witness :
    (solveGo ascEnum 1 [({1, 2} : Constraint)]).2 = true ↔
      ∃ k ∈ getC (propagateLoop [({1, 2} : Constraint)]) 0,
        (solveGo ascEnum 0 (setC (propagateLoop [({1, 2} : Constraint)]) 0
          (newConstraint k))).2 = true :=
  claim_C4_amended.2.2 ascEnum ascEnum_valid 0 [{1, 2}] 0 (by decide)
    (by decide)

/-- Counterexample for C5 as stated: an 81-length sequence whose first value
is 10 has no duplicate nonzero digit, yet `ValidatePuzzle` does not return
true — it crashes on the out-of-range access (modeled `none`). -/
theorem claim_C5_counterexample :
    puzzleTen.length = 81 ∧ (∀ m ∈ allMaskList, MaskNoDup puzzleTen m) ∧
    ValidatePuzzle puzzleTen = none ∧ ValidatePuzzle puzzleTen ≠ some true := by
  decide

/-- Witness for C5's amended statement: a length-80 sequence is rejected. -/
theorem claim_C5_witness :
    ValidatePuzzle (List.replicate 80 (0 : ℤ)) = some false :=
  (claim_C5_amended (List.replicate 80 0)).1 (by decide)

/-- C6 run at the failing inputs: the repository's own test
`TestValidatePuzzleInvalidCase` expects a false return on its 81-cell inputs
holding -1 (`outOfRange1`) or 10 (`outOfRange2`), but `validateMask` indexes
`seenBefore` with the raw cell value and crashes (modeled `none`); a false
return happens only when a duplicate is detected before the bad cell, as in
the third run. -/
theorem claim_C6_bug :
    ValidatePuzzle puzzleNeg = none ∧ ValidatePuzzle puzzleTen = none ∧
    ValidatePuzzle puzzleDupNeg = some false := by
  decide

/-- Witness for C7 at a concrete board and a concrete stuck run. -/
theorem claim_C7_witness :
    (0 < ([({1, 2} : Constraint)] : Board).length ∧
      2 ≤ (getC [({1, 2} : Constraint)] 0).card ∧
      (getC [({1, 2} : Constraint)] 0).card ≤ 9 ∧
      (∀ k, k < 0 → (getC [({1, 2} : Constraint)] k).card ≠
        (getC [({1, 2} : Constraint)] 0).card) ∧
      (∀ s ∈ ([({1, 2} : Constraint)] : Board), 2 ≤ s.card →
        (getC [({1, 2} : Constraint)] 0).card ≤ s.card)) ∧
    solveGo ascEnum 1 stuckBoard = (propagateLoop stuckBoard, false) :=
  ⟨(claim_C7 [{1, 2}] (by decide)).2.1 0 (by decide),
    (claim_C7 [{1, 2}] (by decide)).2.2 ascEnum 0 stuckBoard (by decide)
      (by decide)⟩

/-- Witness for C8 at a one-cell heap board: the clone reads the original
value, and deleting a key through the clone reference leaves the original
untouched. -/
theorem claim_C8_witness :
    (cloneBoard heapW [0]).1.cells 0 = heapW.cells 0 ∧
    (deleteKey (cloneBoard heapW [0]).1 1 2).cells 0 =
      (cloneBoard heapW [0]).1.cells 0 :=
  ⟨(claim_C8 heapW [0] (by decide)).1 0 (by decide),
    (claim_C8 heapW [0] (by decide)).2.2.1 1 (by decide) 2 0 (by decide)⟩

/-- Witness for C9's measures at concrete boards and runs. -/
theorem claim_C9_witness :
    getC (applyAllConstraints [({1} : Constraint)]).1 0 ⊆
      getC [({1} : Constraint)] 0 ∧
    totalSize (applyAllConstraints [({1} : Constraint)]).1 +
      (applyAllConstraints [({1} : Constraint)]).2 =
      totalSize [({1} : Constraint)] ∧
    totalSize (setC [({1, 2} : Constraint)] 0 (newConstraint 1)) <
      totalSize [({1, 2} : Constraint)] ∧
    solveGo ascEnum 2 [({1} : Constraint)] =
      solveGo ascEnum 3 [({1} : Constraint)] :=
  ⟨(claim_C9 ascEnum ascEnum_valid).1 [{1}] 0,
    (claim_C9 ascEnum ascEnum_valid).2.1 [{1}],
    (claim_C9 ascEnum ascEnum_valid).2.2.1 [{1, 2}] 0 1 (by decide) (by decide),
    (claim_C9 ascEnum ascEnum_valid).2.2.2 2 3 [{1}] cellsOK_single
      (by decide) (by decide)⟩

/-- Witness for C10 at the solved grid. -/
theorem claim_C10_witness :
    constraints2Puzzle (puzzle2Constraints solvedGrid) = solvedGrid :=
  claim_C10 solvedGrid (by decide) (by decide)

end GoSudoku
